import Mathlib

/-!
Verification development for the noisy-document entity extraction and
aggregation engine of `gov_agent` (src/student/day1/impl/awards_miner_llm.py
and src/student/day1/impl/competitor_intel.py).

Python strings are modelled as `List Char` (Unicode code points, matching
CPython `str`).  Machine floats that only ever hold exactly representable
values (integer amounts below 2^53, averages) are modelled as `ℚ`.  The
external LLM is modelled as an oracle mapping the prompt to the decoded
JSON view of its reply; total unavailability of the capability is the
`none` case of an `Option` oracle.
-/

namespace GovAgent

/-- Python `str` modelled as a list of Unicode code points. -/
abbrev Str := List Char

/-- Unicode whitespace, as matched by Python `\s` (with `re.UNICODE`) and by
`str.strip()` / `str.split()`.  Covers the ASCII whitespace characters, the
C1/Unicode space separators and the line/paragraph separators. -/
def isPySpace (c : Char) : Bool :=
  c = ' ' || c = '\t' || c = '\n' || c = '\r' || c.toNat = 0x0b || c.toNat = 0x0c ||
  (0x1c ≤ c.toNat && c.toNat ≤ 0x1f) || c.toNat = 0x85 ||
  c.toNat = 0xa0 || c.toNat = 0x1680 ||
  (0x2000 ≤ c.toNat && c.toNat ≤ 0x200a) ||
  c.toNat = 0x2028 || c.toNat = 0x2029 || c.toNat = 0x202f || c.toNat = 0x205f || c.toNat = 0x3000

/-- The horizontal-whitespace class `[ \t]` of `_clean_html_ws`. -/
def isHT (c : Char) : Bool := c = ' ' || c = '\t'

/-- ASCII digit. -/
def isDigit (c : Char) : Bool := '0' ≤ c && c ≤ '9'

/-- ASCII letter. -/
def isLatin (c : Char) : Bool := ('A' ≤ c && c ≤ 'Z') || ('a' ≤ c && c ≤ 'z')

/-- Hangul syllable, the `가-힣` range used throughout the source regexes. -/
def isHangul (c : Char) : Bool := 0xAC00 ≤ c.toNat && c.toNat ≤ 0xD7A3

/-- `pat` is a prefix of `s` (character-for-character). -/
def isPre : Str → Str → Bool
  | [], _ => true
  | _ :: _, [] => false
  | p :: ps, c :: cs => p = c && isPre ps cs

/-- Python `pat in s` (substring containment; `"" in s` is `True`). -/
def containsSub (pat : Str) : Str → Bool
  | [] => isPre pat []
  | c :: cs => isPre pat (c :: cs) || containsSub pat cs

/-- Python `s.count(pat)` for a non-empty `pat`: non-overlapping occurrences,
scanning left to right. -/
def countSub (pat : Str) : Str → Nat
  | [] => 0
  | c :: cs =>
    if isPre pat (c :: cs) then
      1 + countSub pat (List.drop (pat.length - 1) cs)
    else
      countSub pat cs
termination_by s => s.length
decreasing_by
  · simp only [List.length_cons]
    have := List.length_drop (pat.length - 1) cs
    omega
  · simp

/-- The zero-width characters removed by `_clean_html_ws`
(U+200B, U+200C, U+FEFF). -/
def isZW (c : Char) : Bool :=
  c.toNat = 0x200b || c.toNat = 0x200c || c.toNat = 0xfeff

/-- `s.replace(U+200B,"").replace(U+200C,"").replace(U+FEFF,"")`:
removal of a single character is a filter. -/
def dropZeroWidth (s : Str) : Str :=
  s.filter (fun c => !isZW c)

/-- `s.replace("&nbsp;", " ")`: left-to-right scan, each occurrence of the
six-character entity becomes one space. -/
def replNbspEnt : Str → Str
  | '&' :: 'n' :: 'b' :: 's' :: 'p' :: ';' :: r => ' ' :: replNbspEnt r
  | c :: r => c :: replNbspEnt r
  | [] => []

/-- The character substitution of `s.replace(U+00A0, " ")`. -/
def nbspCharFix (c : Char) : Char := if c.toNat = 0xa0 then ' ' else c

/-- `s.replace(U+00A0, " ")` (single-character replace = map). -/
def replNbspChar (s : Str) : Str := s.map nbspCharFix

/-- The character substitution of `s.replace("\r", "\n")`. -/
def crFix (c : Char) : Char := if c = '\r' then '\n' else c

/-- `s.replace("\r", "\n")`. -/
def replCR (s : Str) : Str := s.map crFix

mutual
/-- `re.sub(r"[ \t]+", " ", s)`: state A, not inside a horizontal-whitespace
run. -/
def collapseHT : Str → Str
  | [] => []
  | c :: r => if isHT c then ' ' :: collapseHTRun r else c :: collapseHT r

/-- State B of the `[ \t]+` collapse: inside a run, skipping its remainder. -/
def collapseHTRun : Str → Str
  | [] => []
  | c :: r => if isHT c then collapseHTRun r else c :: collapseHT r
end

mutual
/-- `re.sub(r"\n{3,}", "\n\n", s)`: state 0, no pending newlines. -/
def collapseNL : Str → Str
  | [] => []
  | c :: r => if c = '\n' then collapseNL1 r else c :: collapseNL r

/-- One pending newline seen. -/
def collapseNL1 : Str → Str
  | [] => ['\n']
  | c :: r => if c = '\n' then collapseNL2 r else '\n' :: c :: collapseNL r

/-- Two pending newlines seen. -/
def collapseNL2 : Str → Str
  | [] => ['\n', '\n']
  | c :: r => if c = '\n' then collapseNL3 r else '\n' :: '\n' :: c :: collapseNL r

/-- Three or more newlines seen: the whole run is emitted as two. -/
def collapseNL3 : Str → Str
  | [] => ['\n', '\n']
  | c :: r => if c = '\n' then collapseNL3 r else '\n' :: '\n' :: c :: collapseNL r
end

/-- `_clean_html_ws` of awards_miner_llm.py: strip zero-width characters,
normalize `&nbsp;`/NBSP to a space, `\r` to `\n`, collapse `[ \t]+` runs to
one space and `\n{3,}` runs to two newlines.  (The Python function returns
`""` on non-string input; the model's domain is strings.) -/
def cleanHtmlWs (s : Str) : Str :=
  collapseNL (collapseHT (replCR (replNbspChar (replNbspEnt (dropZeroWidth s)))))

/-- Python `s.split()`: split on runs of whitespace, no empty fields. -/
def pySplit : Str → List Str
  | [] => []
  | c :: r =>
      if isPySpace c then pySplit r
      else
        match pySplit r with
        | [] => [[c]]
        | w :: ws => if r.head?.any (fun d => !isPySpace d) then (c :: w) :: ws else [c] :: w :: ws

/-- `" ".join(ws)`. -/
def joinSpace : List Str → Str
  | [] => []
  | [w] => w
  | w :: ws => w ++ ' ' :: joinSpace ws

/-- `sep.join(ws)` for an arbitrary separator. -/
def joinBy (sep : Str) : List Str → Str
  | [] => []
  | [w] => w
  | w :: ws => w ++ sep ++ joinBy sep ws

/-- `_truncate(s, n)`: whitespace-collapse via `" ".join(s.split())`, then
hard cut to `n-3` characters plus `"..."` when longer than `n`. -/
def pyTruncate (s : Str) (n : Nat) : Str :=
  let t := joinSpace (pySplit (cleanHtmlWs s))
  if t.length ≤ n then t else t.take (n - 3) ++ ['.', '.', '.']

/-- Python `s.strip()` (strip Unicode whitespace from both ends). -/
def pyStrip (s : Str) : Str :=
  ((s.dropWhile (fun c => isPySpace c)).reverse.dropWhile (fun c => isPySpace c)).reverse

/-- Python `s.strip(chars)` for an explicit character set. -/
def pyStripSet (set : List Char) (s : Str) : Str :=
  ((s.dropWhile (fun c => set.contains c)).reverse.dropWhile (fun c => set.contains c)).reverse

/-! ### A small backtracking matcher for the source's regular expressions

Every quantifier in the source's patterns applies to a single character
class, so a pattern is a sequence of: literals, ordered literal
alternations, greedy class repetitions `C{lo,hi}` / `C*` / `C?`, capture
groups, an optional group `(?:...)?` and a top-level two-way alternation.
The matcher implements Python `re` semantics: leftmost match,
alternatives tried in source order, greedy repetition with backtracking.
`fuel` bounds only the depth of the call chain (one unit per frame) and is
always instantiated far above the static nesting depth of the patterns. -/

inductive RItem where
  | lit : Str → RItem
  | alts : List Str → RItem
  | cls : (Char → Bool) → Nat → Option Nat → RItem
  | grp : Nat → List RItem → RItem
  | optSeq : List RItem → RItem
  | alt2 : List RItem → List RItem → RItem
  | optAlts : List Str → RItem

/-- Captured group spans: `(group number, start, end)`, most recent first. -/
abbrev Caps := List (Nat × Nat × Nat)

/-- Length of the maximal prefix of `s` satisfying `p`. -/
def runLen (p : Char → Bool) : Str → Nat
  | [] => 0
  | c :: r => if p c then runLen p r + 1 else 0

/-- Match a sequence of items at `pos` in `full`, with continuation `k`;
returns the first success in Python's backtracking order. -/
def runItems (full : Str) : Nat → List RItem → Nat → Caps →
    (Nat → Caps → Option (Nat × Caps)) → Option (Nat × Caps)
  | 0, _, _, _, _ => none
  | _ + 1, [], pos, caps, k => k pos caps
  | fuel + 1, it :: rest, pos, caps, k =>
    match it with
    | .lit cs =>
        if isPre cs (full.drop pos) then runItems full fuel rest (pos + cs.length) caps k
        else none
    | .alts ls =>
        ls.findSome? (fun cs =>
          if isPre cs (full.drop pos) then runItems full fuel rest (pos + cs.length) caps k
          else none)
    | .cls p lo hi =>
        let mx := runLen p (full.drop pos)
        let top := match hi with | some h => min mx h | none => mx
        if top < lo then none
        else (List.range (top + 1 - lo)).findSome? (fun d =>
          runItems full fuel rest (pos + (top - d)) caps k)
    | .grp n items =>
        runItems full fuel items pos caps (fun pos2 caps2 =>
          runItems full fuel rest pos2 ((n, pos, pos2) :: caps2) k)
    | .optSeq items =>
        match runItems full fuel items pos caps
            (fun pos2 caps2 => runItems full fuel rest pos2 caps2 k) with
        | some r => some r
        | none => runItems full fuel rest pos caps k
    | .alt2 a b =>
        match runItems full fuel a pos caps
            (fun pos2 caps2 => runItems full fuel rest pos2 caps2 k) with
        | some r => some r
        | none => runItems full fuel b pos caps
            (fun pos2 caps2 => runItems full fuel rest pos2 caps2 k)
    | .optAlts ls =>
        match ls.findSome? (fun cs =>
          if isPre cs (full.drop pos) then runItems full fuel rest (pos + cs.length) caps k
          else none) with
        | some r => some r
        | none => runItems full fuel rest pos caps k

/-- One regex match: its span in the subject and its captured groups. -/
structure MatchData where
  mstart : Nat
  mend : Nat
  caps : Caps
deriving DecidableEq, Repr

/-- Try the pattern anchored at `pos`. -/
def matchAt (pat : List RItem) (full : Str) (pos : Nat) : Option (Nat × Caps) :=
  runItems full 1000 pat pos [] (fun p c => some (p, c))

/-- `re.finditer` scan: try each position left to right, continue after each
match (advancing one position after an empty match, as Python does). -/
def findIterAux (pat : List RItem) (full : Str) : Nat → Nat → List MatchData
  | 0, _ => []
  | fuel + 1, pos =>
    match matchAt pat full pos with
    | some (e, caps) =>
        ⟨pos, e, caps⟩ ::
          (if pos < e then findIterAux pat full fuel e else findIterAux pat full fuel (pos + 1))
    | none =>
        if pos < full.length then findIterAux pat full fuel (pos + 1) else []

/-- `re.finditer(pat, full)` as a list of matches. -/
def findIter (pat : List RItem) (full : Str) : List MatchData :=
  findIterAux pat full (full.length + 1) 0

/-- `re.search(pat, full)`: the first match, if any. -/
def reSearch (pat : List RItem) (full : Str) : Option MatchData :=
  (findIter pat full).head?

/-- Span of group `n` in a match. -/
def capGet (caps : Caps) (n : Nat) : Option (Nat × Nat) :=
  (caps.find? (fun t => t.1 = n)).map (·.2)

/-- `full[a:b]`. -/
def slice (full : Str) (a b : Nat) : Str := (full.drop a).take (b - a)

/-- `m.group(n)` as a string, `none` when the group did not participate. -/
def groupStr (full : Str) (m : MatchData) (n : Nat) : Option Str :=
  (capGet m.caps n).map (fun ab => slice full ab.1 ab.2)

/-- Remove the given ordered, non-overlapping spans from `full`
(the splice step of `re.sub(pat, "", full)`). -/
def spliceOut (full : Str) : Nat → List (Nat × Nat) → Str
  | i, [] => full.drop i
  | i, (a, b) :: rest => (full.drop i).take (a - i) ++ spliceOut full b rest

/-- `re.sub(pat, "", full)`: delete every match found by the scan. -/
def reSubDel (pat : List RItem) (full : Str) : Str :=
  spliceOut full 0 ((findIter pat full).map (fun m => (m.mstart, m.mend)))

/-! ### Company-name normalization (`_norm_company` and its constants) -/

/-- `BAN_TOKENS`: boilerplate/meta phrases whose presence rejects a
candidate company name. -/
def banTokens : List Str :=
  ["결정기준".data, "결정방식".data, "유의사항".data, "제안요청서".data, "RFP".data,
   "제안서".data, "내용이".data, "상세".data, "계획서".data, "시험운영".data,
   "평가기준".data, "가점".data, "감점".data, "배점".data, "평가표".data,
   "제출서류".data, "입찰공고".data, "제안요청".data, "공고".data, "발주".data,
   "과업".data, "범위".data, "목적".data,
   "가 제안한".data, "에대해결과".data, "에서 제외함".data, "통보".data,
   "필요시".data, "해야 하며".data]

/-- `COMPANY_HINTS`: tokens strongly indicative of a company name. -/
def companyHints : List Str :=
  ["주식회사".data, "㈜".data, "(주)".data, "(유)".data, "유한".data, "재단".data,
   "협동조합".data, "컨소시엄".data, "엔지니어링".data, "시스템".data, "정보".data,
   "테크".data, "솔루션".data, "컨설팅".data, "개발".data, "산업".data, "전자".data,
   "통신".data, "소프트".data, "데이터".data, "대학교 산학협력단".data,
   "산학협력단".data, "협회".data, "연구원".data, "연구소".data, "코리아".data,
   "INC".data, "LTD".data, "Co.".data, "Corp".data, "Company".data, "Limited".data]

/-- `_has_company_hint`. -/
def hasCompanyHint (n : Str) : Bool :=
  companyHints.any (fun h => containsSub h n)

mutual
/-- `re.sub(r"\s+", " ", s)`: collapse every Unicode-whitespace run to one
space (state A, outside a run). -/
def collapseWS : Str → Str
  | [] => []
  | c :: r => if isPySpace c then ' ' :: collapseWSRun r else c :: collapseWS r

/-- State B of the `\s+` collapse: inside a run. -/
def collapseWSRun : Str → Str
  | [] => []
  | c :: r => if isPySpace c then collapseWSRun r else c :: collapseWS r
end

/-- `\s*` as a pattern item. -/
def wsCls : RItem := .cls (fun c => isPySpace c) 0 none

/-- `COMPANY_CLEAN_PAT`: `\s*(?:주식회사|㈜|\(주\)|\(유\))\s*`. -/
def companyCleanPat : List RItem :=
  [wsCls, .alts ["주식회사".data, "㈜".data, "(주)".data, "(유)".data], wsCls]

/-- The punctuation set of `_norm_company`'s final `strip`. -/
def punctStripSet : List Char := " ,.;:·-()[]|".data

/-- The cleaning pipeline of `_norm_company` before its reject checks:
`_clean_html_ws`, whitespace collapse + strip, corporate-prefix removal +
strip, punctuation strip. -/
def normPrep (name : Str) : Str :=
  pyStripSet punctStripSet
    (pyStrip (reSubDel companyCleanPat (pyStrip (collapseWS (cleanHtmlWs name)))))

/-- Count of characters that Python's `ch.isalpha() or ch.isdigit()` accepts,
restricted to the alphabets the miner can produce (Hangul, Latin, ASCII
digits); on the candidate alphabet `[가-힣A-Za-z0-9&.,\-·() ]` this agrees
exactly with Python. -/
def alnumCount (n : Str) : Nat :=
  (n.filter (fun c => isHangul c || isLatin c || isDigit c)).length

/-- `_norm_company`: trim and strip corporate-prefix tokens, then reject
empty/short names, ban-token carriers, names with no Hangul/Latin letter,
long space-free tokens without a corporate hint, low alphanumeric density
(`< 0.6`; the float literal `0.6` and the rational `3/5` order rationals
with denominators of realistic size identically), and bare 1–2 character
Hangul particles. -/
def normCompany (name : Str) : Option Str :=
  if name.isEmpty then none
  else
    let n := normPrep name
    if n.isEmpty || n.length < 2 then none
    else if banTokens.any (fun k => containsSub k n) then none
    else if !(n.any (fun c => isHangul c || isLatin c)) then none
    else if !n.contains ' ' && 16 ≤ n.length && !hasCompanyHint n then none
    else if alnumCount n * 5 < n.length * 3 then none
    else if (n.length = 1 || n.length = 2) && n.all (fun c => isHangul c) then none
    else some n

/-- `_is_number_like`: contains a digit or a currency/unit token. -/
def isNumberLike (x : Str) : Bool :=
  x.any (fun c => isDigit c) ||
  ["원".data, "만원".data, "억원".data, "천만원".data, "백만원".data,
   "KRW".data, "₩".data].any (fun u => containsSub u x)

/-! ### Deterministic candidate extractor (`_fallback_extract`) -/

/-- `WINNER_KEYS`. -/
def winnerKeys : List Str :=
  ["낙찰자".data, "낙찰 업체".data, "낙찰업체".data, "우선협상대상자".data,
   "계약상대자".data, "선정 업체".data, "선정업체".data, "우선협상 대상자".data]

/-- `AGENCY_KEYS`. -/
def agencyKeys : List Str :=
  ["발주기관".data, "수요기관".data, "구매기관".data, "발주 부서".data,
   "계약기관".data, "계약부서".data, "발주처".data, "수요처".data]

/-- `REASON_KEYS`. -/
def reasonKeys : List Str :=
  ["사유".data, "근거".data, "평가".data, "정성".data, "정량".data,
   "우수".data, "기술".data, "가격".data, "낙찰".data, "선정".data]

/-- The character class of `KOR_COMPANY_PAT`'s body,
`[가-힣A-Za-z0-9&.,\-·() ]`. -/
def isCompanyBody (c : Char) : Bool :=
  isHangul c || isLatin c || isDigit c ||
  c = '&' || c = '.' || c = ',' || c = '-' || c = '·' || c = '(' || c = ')' || c = ' '

/-- `KOR_COMPANY_PAT`: `(?:주식회사\s*)?[㈜(주)(유)]?\s*[가-힣A-Za-z0-9&.,\-·() ]{2,60}`
(the bracket expression is a character class over the five characters
`㈜ ( 주 ) 유`). -/
def korCompanyItems : List RItem :=
  [.optSeq [.lit "주식회사".data, wsCls],
   .cls (fun c => c = '㈜' || c = '(' || c = '주' || c = ')' || c = '유') 0 (some 1),
   wsCls,
   .cls isCompanyBody 2 (some 60)]

/-- The optional separator class `[:：\-–]?`. -/
def sepCls : RItem := .cls (fun c => c = ':' || c = '：' || c = '-' || c = '–') 0 (some 1)

/-- `COMPANY_REGEX_A` (winner keyword, separator, captured company). -/
def companyRegexA : List RItem :=
  [.alts winnerKeys, wsCls, sepCls, wsCls, .grp 1 korCompanyItems]

/-- `COMPANY_REGEX_B` (generic company label, separator, captured company). -/
def companyRegexB : List RItem :=
  [.alts ["업체명".data, "사업자".data, "제안사".data, "업체".data],
   wsCls, sepCls, wsCls, .grp 1 korCompanyItems]

/-- `COMPANY_NEAR_WINNER`: keyword and company within a 40-character window,
in either order. -/
def companyNearWinner : List RItem :=
  [.alt2
    [.grp 1 [.alts winnerKeys], .cls (fun _ => true) 0 (some 40), .grp 2 korCompanyItems]
    [.grp 3 korCompanyItems, .cls (fun _ => true) 0 (some 40), .grp 4 [.alts winnerKeys]]]

/-- `AMOUNT_REGEX`:
`(?:낙찰금액|계약금액|추정가격|투찰금액)\s*[:：\-–]?\s*([0-9][0-9,.\s]*\s*(?:원|억원|천만원|백만원|KRW|₩)?)`. -/
def amountRegex : List RItem :=
  [.alts ["낙찰금액".data, "계약금액".data, "추정가격".data, "투찰금액".data],
   wsCls, sepCls, wsCls,
   .grp 1
     [.cls isDigit 1 (some 1),
      .cls (fun c => isDigit c || c = ',' || c = '.' || isPySpace c) 0 none,
      wsCls,
      .optAlts ["원".data, "억원".data, "천만원".data, "백만원".data, "KRW".data, "₩".data]]]

/-- `AGENCY_REGEX`: agency keyword, separator, captured
`[가-힣A-Za-z0-9&.,\-·() ]{2,60}` span. -/
def agencyRegex : List RItem :=
  [.alts agencyKeys, wsCls, sepCls, wsCls, .grp 1 [.cls isCompanyBody 2 (some 60)]]

/-- `_company_score`: +2 hint token, +1 space or corporate prefix,
−2 long space-free token without hint, +1 proximity to the keyword span;
−999 when the name does not normalize. -/
def companyScore (rawName : Str) (ctx : Str) (keySpan : Nat × Nat) : Int :=
  match normCompany rawName with
  | none => -999
  | some nNorm =>
    let s1 : Int := if hasCompanyHint rawName || hasCompanyHint nNorm then 2 else 0
    let s2 : Int :=
      if nNorm.contains ' ' || isPre "(주)".data rawName || isPre "㈜".data rawName ||
         isPre "(주)".data nNorm || isPre "㈜".data nNorm ||
         isPre "(유)".data rawName || isPre "(유)".data nNorm then 1 else 0
    let s3 : Int := if !nNorm.contains ' ' && 16 ≤ nNorm.length && !hasCompanyHint nNorm then -2 else 0
    let a := keySpan.1 - 40
    let b := min ctx.length (keySpan.2 + 40)
    let window := slice ctx a b
    let s4 : Int := if containsSub rawName window || containsSub nNorm window then 1 else 0
    s1 + s2 + s3 + s4

/-- A raw candidate: the first non-empty captured group of a match, with the
match span (`for g in m.groups(): if g: cand = g; break`). -/
structure Cand where
  cand : Str
  span : Nat × Nat
deriving DecidableEq, Repr

/-- Extract the candidate of one match, scanning groups `1..ng`. -/
def matchCand (full : Str) (ng : Nat) (m : MatchData) : Option Cand :=
  ((List.range ng).findSome? (fun i =>
    match groupStr full m (i + 1) with
    | some g => if g.isEmpty then none else some g
    | none => none)).map (fun g => ⟨g, (m.mstart, m.mend)⟩)

/-- All candidates of the three ordered pattern families over `text`. -/
def fbCandidates (text : Str) : List Cand :=
  ((findIter companyRegexA text).filterMap (matchCand text 1)) ++
  ((findIter companyRegexB text).filterMap (matchCand text 1)) ++
  ((findIter companyNearWinner text).filterMap (matchCand text 4))

/-- A surviving winner candidate during `_fallback_extract`. -/
structure RawW where
  name : Str
  amount : Option Str
  score : Int
  pos : Nat × Nat
deriving DecidableEq, Repr

/-- Candidates scored and thresholded: score `< 2` is discarded, the rest are
kept under their normalized name. -/
def fbScored (text : Str) : List RawW :=
  (fbCandidates text).filterMap (fun c =>
    if companyScore c.cand text c.span < 2 then none
    else (normCompany c.cand).map (fun nm =>
      ⟨nm, none, companyScore c.cand text c.span, c.span⟩))

/-- Amount matches: `(stripped group 1, match start)` in scan order. -/
def fbAmounts (text : Str) : List (Str × Nat) :=
  (findIter amountRegex text).filterMap (fun m =>
    (groupStr text m 1).map (fun g => (pyStrip g, m.mstart)))

/-- Stable insertion sort: `x` goes before the first `y` with `f x y`.  With
`f x y` = "the key of `x` is ≤ the key of `y`" (processed by `foldr`, so each
element is inserted before everything that followed it) this is exactly the
result of Python's stable `sorted`/`list.sort`. -/
def sInsert (f : α → α → Bool) (x : α) : List α → List α
  | [] => [x]
  | y :: ys => if f x y then x :: y :: ys else y :: sInsert f x ys

/-- Stable sort by the "may precede" test `f` (see `sInsert`). -/
def sSort (f : α → α → Bool) (l : List α) : List α := l.foldr (sInsert f) []

/-- `w.get("amount") in (None, "")`. -/
def amtEmpty (a : Option Str) : Bool := a = none || a = some []

/-- Functional update of the amount of the `i`-th candidate. -/
def setAmtAt : List RawW → Nat → Str → List RawW
  | [], _, _ => []
  | w :: ws, 0, amt => { w with amount := some amt } :: ws
  | w :: ws, i + 1, amt => w :: setAmtAt ws i amt

/-- Character distance from an amount-match start to the `i`-th candidate's
match start (`abs(pos - w["_pos"][0])`). -/
def candDist (ws : List RawW) (pos i : Nat) : Nat :=
  ((pos : Int) - (((ws[i]?).map (fun w => (w.pos.1 : Int))).getD 0)).natAbs

/-- The chosen candidate index for one amount: among the (stably) 3 nearest
candidates by distance, the first one whose amount slot is still empty. -/
def near3Idx (ws : List RawW) (pos : Nat) : Option Nat :=
  ((sSort (fun i j => candDist ws pos i ≤ candDist ws pos j)
      (List.range ws.length)).take 3).find?
    (fun i => ((ws[i]?).map (fun w => amtEmpty w.amount)).getD false)

/-- One amount match assigned conservatively to the chosen candidate. -/
def assignStep (ws : List RawW) (am : Str × Nat) : List RawW :=
  if ws.isEmpty || !isNumberLike am.1 then ws
  else
    match near3Idx ws am.2 with
    | some i => setAmtAt ws i am.1
    | none => ws

/-- Scored candidates after the amount-assignment loop. -/
def fbAssigned (text : Str) : List RawW :=
  (fbAmounts text).foldl assignStep (fbScored text)

/-- Lexicographic order on code points (Python `str` comparison). -/
def strLe : Str → Str → Bool
  | [], _ => true
  | _ :: _, [] => false
  | a :: xs, b :: ys => if a = b then strLe xs ys else decide (a.toNat ≤ b.toNat)

/-- Candidate ranking key: descending score, then ascending name
(Python tuple key `(-score, name)`). -/
def fbRankKey (w1 w2 : RawW) : Bool :=
  w2.score < w1.score || (w1.score = w2.score && strLe w1.name w2.name)

/-- A winner as returned by `_fallback_extract`. -/
structure FbW where
  name : Str
  amount : Option Str
deriving DecidableEq, Repr

/-- Deduplicate ranked candidates by name, keeping the first occurrence. -/
def dedupFb : List RawW → List Str → List FbW
  | [], _ => []
  | w :: ws, seen =>
    if w.name.isEmpty || seen.contains w.name then dedupFb ws seen
    else ⟨w.name, w.amount⟩ :: dedupFb ws (w.name :: seen)

/-- `re.split(r"[\n\.]", text)` (keeps empty fields). -/
def splitNlDot : Str → List Str
  | [] => [[]]
  | c :: r =>
    if c = '\n' || c = '.' then [] :: splitNlDot r
    else
      match splitNlDot r with
      | [] => [[c]]
      | p :: ps => (c :: p) :: ps

/-- Reason sentences: sentences containing a reason keyword, truncated to
100 characters, deduplicated by exact string, in order. -/
def fbReasons (text : Str) : List Str :=
  (splitNlDot text).foldl (fun acc sent =>
    let s := pyStrip sent
    if s.isEmpty then acc
    else if reasonKeys.any (fun k => containsSub k s) then
      let s2 := pyTruncate s 100
      if !s2.isEmpty && !acc.contains s2 then acc ++ [s2] else acc
    else acc) []

/-- The agency: first `AGENCY_REGEX` match whose group normalizes. -/
def fbAgency (text : Str) : Option Str :=
  match reSearch agencyRegex text with
  | none => none
  | some m => (groupStr text m 1).bind normCompany

/-- The result triple of `_fallback_extract`. -/
structure FbResult where
  winners : List FbW
  reasons : List Str
  agency : Option Str
deriving DecidableEq, Repr

/-- `_fallback_extract`: clean the text, mine scored winner candidates,
assign amounts, mine the agency and reason sentences, rank winners by
`(-score, name)`, deduplicate by name and cap at 10 (reasons at 10). -/
def fallbackExtract (text0 : Str) : FbResult :=
  if (cleanHtmlWs text0).isEmpty then ⟨[], [], none⟩
  else
    ⟨(dedupFb (sSort fbRankKey (fbAssigned (cleanHtmlWs text0))) []).take 10,
     (fbReasons (cleanHtmlWs text0)).take 10,
     fbAgency (cleanHtmlWs text0)⟩

/-! ### Probabilistic extractor adapter and aggregator
(`_chunk_text`, `_call_llm`, `build_awards_snapshot_llm`)

The external LLM round trip (`_llm_send_with_retry` + `_json_loose_load` +
field lookup) is modelled as an oracle `Str → LlmView` mapping the prompt to
the decoded JSON view of whatever reply text survived retries and loose JSON
recovery — an arbitrary such view, since the model may answer anything; a
failed or unparseable exchange is the view with no winners, no reasons and
an empty agency.  Total unavailability (`_get_llm() is None`) is the `none`
case of the `Option`-valued oracle argument. -/

/-- A JSON value in a winner's `amount` slot: `null`, a number, a string, or
any other JSON shape (ignored by the aggregation's `isinstance` checks). -/
inductive JAmount where
  | jnull
  | jnum : ℚ → JAmount
  | jstr : Str → JAmount
  | jother
deriving DecidableEq, Repr

/-- An entry of the decoded `winners` list: a dict with its `name`/`amount`
slots, or a non-dict entry (skipped by `isinstance(w, dict)`). -/
inductive JWinner where
  | jdict : Str → JAmount → JWinner
  | other
deriving DecidableEq, Repr

/-- An entry of the decoded `reasons` list: a string or anything else
(skipped by `isinstance(r, str)`). -/
inductive JReason where
  | jstr : Str → JReason
  | other
deriving DecidableEq, Repr

/-- The decoded view of one LLM reply:
`data.get("winners") or []`, `data.get("reasons") or []`,
`data.get("agency") or ""`. -/
structure LlmView where
  winners : List JWinner
  reasons : List JReason
  agency : Str

/-- A frequency counter (`collections.Counter`): an association list in key
insertion order. -/
abbrev CounterL := List (Str × Nat)

/-- `counter[k] += 1`. -/
def cInc : CounterL → Str → CounterL
  | [], k => [(k, 1)]
  | (k2, v) :: rest, k => if k2 = k then (k2, v + 1) :: rest else (k2, v) :: cInc rest k

/-- The "may precede" test of `Counter.most_common`: descending count,
ties in insertion order (stable). -/
def mcKey (a b : Str × Nat) : Bool := b.2 ≤ a.2

/-- `counter.most_common(n)`: stable descending sort by count, first `n`. -/
def mostCommon (n : Nat) (c : CounterL) : List (Str × Nat) := (sSort mcKey c).take n

/-- A validated winner entry accumulated by `_call_llm`
(`{"name": nm, "amount": amt}`). -/
structure WEntry where
  name : Str
  amount : JAmount
deriving DecidableEq, Repr

/-- `re.split(r"\n{2,}", body)`: pieces between runs of two or more
newlines (fuel-guarded; each step consumes at least one character). -/
def splitParasAux : Nat → Str → List Str
  | _, [] => [[]]
  | 0, _ => [[]]
  | fuel + 1, c :: r =>
    if c = '\n' && (r.head? = some '\n') then
      [] :: splitParasAux fuel (r.dropWhile (fun d => d = '\n'))
    else
      match splitParasAux fuel r with
      | [] => [[c]]
      | p :: ps => (c :: p) :: ps

/-- `re.split(r"\n{2,}", body)`. -/
def splitParas (b : Str) : List Str := splitParasAux (b.length + 1) b

/-- The greedy paragraph-packing loop of `_chunk_text`. -/
def packParas (maxLen : Nat) : List Str → Str → List Str
  | [], cur => if cur.isEmpty then [] else [cur]
  | p :: ps, cur =>
    if cur.length + p.length + 2 ≤ maxLen then
      packParas maxLen ps (cur ++ (if cur.isEmpty then [] else ('\n' :: '\n' :: [])) ++ p)
    else
      if cur.isEmpty then packParas maxLen ps p
      else cur :: packParas maxLen ps p

/-- `_chunk_text`: clean, return whole body when short enough, else split on
paragraph boundaries and pack greedily. -/
def chunkText (body0 : Str) (maxLen : Nat) : List Str :=
  let body := cleanHtmlWs body0
  if body.length ≤ maxLen then [body] else packParas maxLen (splitParas body) []

/-- `SYSTEM_INSTR`. -/
def systemInstr : Str :=
  ("역할: 당신은 한국어 공공입찰 결과 문서를 정리하는 어시스턴트입니다. " ++
   "항상 사실만 기반으로, 지정된 JSON 스키마로만 응답하세요. " ++
   "문서에 명시되지 않은 정보를 생성하지 마세요.").data

/-- `USER_TPL.format(title=..., url=..., body=...)` (the `{{`/`}}` escapes of
the source template render as literal braces). -/
def userTpl (title url body : Str) : Str :=
  ("아래 본문은 입찰 결과/낙찰 공고와 관련된 텍스트입니다.\n" ++
   "이 텍스트에서 \u0027낙찰업체(또는 우선협상대상자/계약상대자)\u0027, \u0027발주기관(가능시)\u0027, \u0027낙찰금액(가능시)\u0027, 그리고 \u0027낙찰 사유/근거(문구형태)\u0027를 찾아 JSON으로만 출력하세요.\n" ++
   "\n반드시 아래 스키마로만 출력:\n\x7b\n" ++
   "  \"winners\": [\x7b\"name\": \"회사명\", \"amount\": \"숫자(원 단위 또는 기재된 단위 그대로)\"\x7d],\n" ++
   "  \"agency\": \"발주기관 이름 또는 빈 문자열\",\n" ++
   "  \"reasons\": [\"키워드 또는 짧은 근거 문구\"...]\n\x7d\n" ++
   "\n지켜야 할 규칙:\n" ++
   "- 문서에 없는 정보는 생성하지 말고 빈 값으로 남겨두세요.\n" ++
   "- \u0027winners\u0027는 실제 회사명만 넣습니다(설명/문장 조각 금지).\n" ++
   "- 표/선정 결과/공고의 \u0027낙찰자·우선협상대상자·계약상대자\u0027를 우선 반영합니다.\n" ++
   "- 금액은 원문 단위를 보존합니다(숫자 포함 시).\n" ++
   "\n[제목]\n").data ++ title ++
  "\n\n[URL]\n".data ++ url ++
  "\n\n[본문 (일부 청크)]\n".data ++ body ++ "\n".data

/-- The prompt sent for one chunk:
`f"{SYSTEM_INSTR}\n\n" + USER_TPL.format(...)`. -/
def promptFor (title url chunk : Str) : Str :=
  systemInstr ++ ('\n' :: '\n' :: []) ++ userTpl title url chunk

/-- The accumulated state of `_call_llm`'s chunk loop. -/
structure Accum where
  winners : List WEntry
  reasons : List Str
  votes : CounterL
deriving Repr

/-- Fold one decoded chunk reply into the accumulator: validate winner names
through `_norm_company`, strip and truncate reasons to 100 characters, and
count one agency vote per chunk reporting a normalizable non-empty agency. -/
def viewAccum (a : Accum) (v : LlmView) : Accum :=
  { winners := a.winners ++ v.winners.filterMap (fun w =>
      match w with
      | .jdict nm amt => (normCompany nm).map (fun n2 => WEntry.mk n2 amt)
      | .other => none),
    reasons := a.reasons ++ v.reasons.filterMap (fun r =>
      match r with
      | .jstr s => let s2 := pyStrip s; if s2.isEmpty then none else some (pyTruncate s2 100)
      | .other => none),
    votes := if v.agency.isEmpty then a.votes
             else match normCompany v.agency with
                  | some ag => cInc a.votes ag
                  | none => a.votes }

/-- The chunk loop of `_call_llm` over `_chunk_text(body, 9000)`. -/
def chunkAccums (oracle : Str → LlmView) (title url body : Str) : Accum :=
  (chunkText body 9000).foldl (fun a ch => viewAccum a (oracle (promptFor title url ch)))
    ⟨[], [], []⟩

/-- The per-page result of `_call_llm`. -/
structure PageOut where
  winners : List WEntry
  reasons : List Str
  agency : Str
deriving DecidableEq, Repr

/-- A fallback winner as a winner entry (`amount` is `None` or a string). -/
def fbWEntry (w : FbW) : WEntry :=
  ⟨w.name, match w.amount with | none => .jnull | some s => .jstr s⟩

/-- Winner deduplication by name keeping first occurrence
(`if nm and nm not in uniq`). -/
def dedupW : List WEntry → List Str → List WEntry
  | [], _ => []
  | w :: ws, seen =>
    if w.name.isEmpty || seen.contains w.name then dedupW ws seen
    else w :: dedupW ws (w.name :: seen)

/-- The accumulator after `_call_llm`'s fallback merge: when no winners were
accumulated over the chunks, run `_fallback_extract` on the full body and
merge its winners, filling reasons and the agency vote only when still
empty. -/
def callLlmMerged (oracle : Str → LlmView) (title url body : Str) : Accum :=
  if (chunkAccums oracle title url body).winners.isEmpty then
    { winners := (fallbackExtract body).winners.map fbWEntry,
      reasons := if (chunkAccums oracle title url body).reasons.isEmpty
                    && !(fallbackExtract body).reasons.isEmpty
                 then (fallbackExtract body).reasons
                 else (chunkAccums oracle title url body).reasons,
      votes := match (chunkAccums oracle title url body).votes,
                     (fallbackExtract body).agency with
               | [], some ag => [(ag, 1)]
               | vs, _ => vs }
  else chunkAccums oracle title url body

/-- `_call_llm`: the merged accumulator with the agency elected by majority
vote (`most_common(1)`) and the winners deduplicated by name. -/
def callLlm (oracle : Str → LlmView) (title url body : Str) : PageOut :=
  ⟨dedupW (callLlmMerged oracle title url body).winners [],
   (callLlmMerged oracle title url body).reasons,
   (((sSort mcKey (callLlmMerged oracle title url body).votes).head?).map (·.1)).getD []⟩

/-- A `PageRecord` (`{url, title, text}`; absent keys default to `""`). -/
structure Page where
  url : Str
  title : Str
  text : Str

/-- One ranked entry of `signals.topWinners`. -/
structure TopWinner where
  name : Str
  wins : Nat
  avgAmount : Option ℚ
deriving DecidableEq, Repr

/-- One entry of `signals.topReasons` (`{"reason":..., "freq":...}`). -/
structure ReasonEntry where
  reason : Str
  freq : Nat
deriving DecidableEq, Repr

/-- One entry of `signals.agencies` (`{"name":..., "freq":...}`). -/
structure AgencyEntry where
  name : Str
  freq : Nat
deriving DecidableEq, Repr

/-- One evidence snippet of the snapshot. -/
structure Evidence where
  url : Str
  title : Str
  snippet : Str
deriving DecidableEq, Repr

/-- One legacy winner entry (`{"name":..., "count":...}`). -/
structure LegacyW where
  name : Str
  count : Nat
deriving DecidableEq, Repr

/-- The reserved `score` block (always three nulls). -/
structure ScoreBox where
  tech : Option ℚ
  price : Option ℚ
  total : Option ℚ
deriving DecidableEq, Repr

/-- The `signals` block. -/
structure Signals where
  topWinners : List TopWinner
  topReasons : List ReasonEntry
  agencies : List AgencyEntry
deriving DecidableEq, Repr

/-- The `AwardSnapshot` payload.  `note` models the presence of the `"note"`
key (only the unavailability payload carries it). -/
structure Snapshot where
  query : Str
  winners : List LegacyW
  signals : Signals
  evidences : List Evidence
  score : ScoreBox
  note : Option Str
deriving DecidableEq, Repr

/-- `re.sub(r"[^\d.]", "", amt)` (ASCII digits; the miner's amount strings
contain no other digit shapes). -/
def digitsDots (s : Str) : Str := s.filter (fun c => isDigit c || c = '.')

/-- Digits to a natural number. -/
def natOfDigits (s : Str) : Nat := s.foldl (fun a c => a * 10 + (c.toNat - 48)) 0

/-- Python `float(s)` on a string of digits and dots: at most one dot and at
least one digit, else a `ValueError` (modelled as `none`).  The value is the
exact rational; every amount a claim touches is a float-exact integer. -/
def parseFloatDD (s : Str) : Option ℚ :=
  let ip := s.takeWhile (fun c => c ≠ '.')
  let rest := s.dropWhile (fun c => c ≠ '.')
  match rest with
  | [] => if ip.isEmpty then none else some ((natOfDigits ip : ℚ))
  | _ :: frac =>
      if frac.contains '.' then none
      else if ip.isEmpty && frac.isEmpty then none
      else some ((natOfDigits ip : ℚ) + (natOfDigits frac : ℚ) / ((10 : ℚ) ^ frac.length))

/-- The per-winner amount bag (`defaultdict(list)`), in insertion order. -/
abbrev AmountBag := List (Str × List ℚ)

/-- `amount_bag[k].append(q)`. -/
def bagPush : AmountBag → Str → ℚ → AmountBag
  | [], k, q => [(k, [q])]
  | (k2, l) :: rest, k, q =>
    if k2 = k then (k2, l ++ [q]) :: rest else (k2, l) :: bagPush rest k q

/-- `amount_bag.get(k) or []`. -/
def bagGet (bag : AmountBag) (k : Str) : List ℚ :=
  (((bag.find? (fun e => e.1 = k)).map (·.2))).getD []

/-- Aggregation of one winner entry: count the mention and collect its
amount (numbers directly; strings digit-stripped and float-parsed, silently
dropping failures). -/
def aggWinner (st : CounterL × AmountBag) (w : WEntry) : CounterL × AmountBag :=
  if w.name.isEmpty then st
  else
    let c2 := cInc st.1 w.name
    match w.amount with
    | .jnum q => (c2, bagPush st.2 w.name q)
    | .jstr s =>
        let m := digitsDots s
        if m.isEmpty then (c2, st.2)
        else
          match parseFloatDD m with
          | some q => (c2, bagPush st.2 w.name q)
          | none => (c2, st.2)
    | _ => (c2, st.2)

/-- The page-loop state of `build_awards_snapshot_llm`. -/
structure PState where
  allWinners : List WEntry
  allReasons : List Str
  agencyCounts : CounterL
  evidences : List Evidence

/-- One page of the loop: skip empty text, call the adapter, accumulate
winners/reasons/agency and record an evidence snippet. -/
def pageStep (oracle : Str → LlmView) (st : PState) (p : Page) : PState :=
  let url := pyStrip p.url
  let title := pyStrip p.title
  let text := cleanHtmlWs p.text
  if text.isEmpty then st
  else
    let d := callLlm oracle title url text
    { allWinners := st.allWinners ++ d.winners,
      allReasons := st.allReasons ++ d.reasons,
      agencyCounts := if d.agency.isEmpty then st.agencyCounts else cInc st.agencyCounts d.agency,
      evidences := st.evidences ++ [⟨url, title, pyTruncate text 240⟩] }

/-- The page loop of `build_awards_snapshot_llm` over all pages. -/
def pagesState (oracle : Str → LlmView) (pages : List Page) : PState :=
  pages.foldl (pageStep oracle) ⟨[], [], [], []⟩

/-- The winner counter and amount bag aggregated from the accumulated
winner entries. -/
def baseCount (st : PState) : CounterL × AmountBag :=
  st.allWinners.foldl aggWinner ([], [])

/-- The winner counter, reason list and agency counter after the global
deterministic fallback, which fires only when the winner counter is still
empty: it seeds the counter from `_fallback_extract` over the concatenation
of all cleaned page texts (amounts are not collected), extends the reasons
only when none were accumulated, and always adds the fallback agency vote. -/
def globalMerge (pages : List Page) (st : PState) (wc : CounterL) :
    CounterL × List Str × CounterL :=
  if wc.isEmpty then
    let allText := joinBy ('\n' :: '\n' :: []) (pages.map (fun p => cleanHtmlWs p.text))
    let fb := fallbackExtract allText
    (fb.winners.foldl (fun c w => if w.name.isEmpty then c else cInc c w.name) [],
     if st.allReasons.isEmpty && !fb.reasons.isEmpty then st.allReasons ++ fb.reasons
     else st.allReasons,
     match fb.agency with
     | some ag => cInc st.agencyCounts ag
     | none => st.agencyCounts)
  else (wc, st.allReasons, st.agencyCounts)

/-- The reason counter (`Counter([r.strip() for r in all_reasons if r and r.strip()])`). -/
def reasonCounts (reasons : List Str) : CounterL :=
  (reasons.filterMap (fun r =>
    let r2 := pyStrip r
    if r.isEmpty || r2.isEmpty then none else some r2)).foldl cInc []

/-- `build_awards_snapshot_llm` (the spec's `extract`): when no client can be
constructed, the flagged empty payload; otherwise the page loop, the global
deterministic fallback over the concatenated bodies when the winner counter
is still empty, and the ranked, capped signal payload. -/
def buildAwardsSnapshotLlm (llm : Option (Str → LlmView)) (pages : List Page)
    (query : Str) : Snapshot :=
  match llm with
  | none =>
    ⟨query, [], ⟨[], [], []⟩, [], ⟨none, none, none⟩, some "LLM unavailable".data⟩
  | some oracle =>
    let st := pagesState oracle pages
    let cb := baseCount st
    let fbp := globalMerge pages st cb.1
    let topW := (mostCommon 8 fbp.1).map (fun e =>
      let amts := bagGet cb.2 e.1
      TopWinner.mk e.1 e.2 (if amts.isEmpty then none else some (amts.sum / (amts.length : ℚ))))
    let topR := (mostCommon 8 (reasonCounts fbp.2.1)).map (fun e => ReasonEntry.mk e.1 e.2)
    let topA := (mostCommon 6 fbp.2.2).map (fun e => AgencyEntry.mk e.1 e.2)
    let legacy := (mostCommon 5 fbp.1).map (fun e => LegacyW.mk e.1 e.2)
    ⟨query, legacy, ⟨topW, topR, topA⟩, st.evidences.take 20, ⟨none, none, none⟩, none⟩

/-! ### Competitor-intel builder (`build_competitor_intel_from_pages`)

The source constructs an `Award` dataclass per retained page; of its fields
only `winner` and `amount` are read by the aggregation, and only the
evidence list, concentration signal and query reach the returned payload
besides `topCompetitors` — the unused fields (`noticeId`, `title`, `agency`,
`openDate`, `topicTags`, `region`, `url`) are therefore not modelled. -/

/-- The `\w` class of `WINNER_PAT`/`TITLE_WINNER_PAT` restricted to the
alphabets occurring in this corpus (Hangul, Latin, ASCII digits,
underscore). -/
def isPyWord (c : Char) : Bool := isHangul c || isLatin c || isDigit c || c = '_'

/-- The captured class `[\w\-\(\)&·㈜\s]` of the winner patterns. -/
def isCpWinnerChar (c : Char) : Bool :=
  isPyWord c || c = '-' || c = '(' || c = ')' || c = '&' || c = '·' || c = '㈜' || isPySpace c

/-- The mandatory separator `\s*[:：]\s*`. -/
def cpColon : RItem := .cls (fun c => c = ':' || c = '：') 1 (some 1)

/-- `WINNER_PAT`: `(낙찰자|낙찰업체|낙찰\s*사)\s*[:：]\s*([\w\-\(\)&·㈜\s]+)`. -/
def cpWinnerPat : List RItem :=
  [.grp 1 [.alt2 [.lit "낙찰자".data]
            [.alt2 [.lit "낙찰업체".data] [.lit "낙찰".data, wsCls, .lit "사".data]]],
   wsCls, cpColon, wsCls,
   .grp 2 [.cls isCpWinnerChar 1 none]]

/-- `TITLE_WINNER_PAT`:
`낙찰\s*(?:자|업체|사)\s*[:：]?\s*([\w\-()&·㈜\s]{2,})`. -/
def cpTitleWinnerPat : List RItem :=
  [.lit "낙찰".data, wsCls, .alts ["자".data, "업체".data, "사".data],
   wsCls, .cls (fun c => c = ':' || c = '：') 0 (some 1), wsCls,
   .grp 1 [.cls isCpWinnerChar 2 none]]

/-- `AMOUNT_PAT`: `(낙찰금액|계약금액|금액)\s*[:：]\s*([0-9,]+)\s*(원|KRW)?`
(the unit group 3 is never read by the source). -/
def cpAmountPat : List RItem :=
  [.grp 1 [.alts ["낙찰금액".data, "계약금액".data, "금액".data]],
   wsCls, cpColon, wsCls,
   .grp 2 [.cls (fun c => isDigit c || c = ',') 1 none],
   wsCls, .optAlts ["원".data, "KRW".data]]

/-- `_norm_amount`: drop commas, strip, `float(...)` (`None` on failure). -/
def cpNormAmount (s : Str) : Option ℚ :=
  let t := pyStrip (s.filter (fun c => c ≠ ','))
  if t.isEmpty || !(t.all (fun c => isDigit c)) then none
  else some ((natOfDigits t : ℚ))

/-- The winner of `_extract_award_fields`: `WINNER_PAT` group 2 over the
body, else `TITLE_WINNER_PAT` group 1 over the title, else `""`
(`m.lastindex >= 2` holds exactly for the body pattern), stripped. -/
def cpWinnerOf (title text : Str) : Str :=
  match reSearch cpWinnerPat text with
  | some m => pyStrip ((groupStr text m 2).getD [])
  | none =>
    match reSearch cpTitleWinnerPat title with
    | some m => pyStrip ((groupStr title m 1).getD [])
    | none => []

/-- The amount of `_extract_award_fields`. -/
def cpAmountOf (text : Str) : Option ℚ :=
  match reSearch cpAmountPat text with
  | some m => cpNormAmount ((groupStr text m 2).getD [])
  | none => none

/-- `s.replace("주식회사", "")` (left-to-right scan). -/
def replJusik : Str → Str
  | '주' :: '식' :: '회' :: '사' :: r => replJusik r
  | c :: r => c :: replJusik r
  | [] => []

/-- `_canon`: remove `㈜` and `주식회사`, strip, collapse whitespace runs. -/
def canonName (name : Str) : Str :=
  collapseWS (pyStrip (replJusik (name.filter (fun c => c ≠ '㈜'))))

/-- The award-context keyword filter of the page loop. -/
def awardCtxKeys : List Str :=
  ["낙찰".data, "개찰".data, "입찰 결과".data, "낙찰자".data,
   "협상대상자".data, "계약 체결".data]

/-- A page is retained exactly when it has non-empty text and its
title + text contains an award-context keyword. -/
def cpContrib (p : Page) : Bool :=
  !p.text.isEmpty && awardCtxKeys.any (fun k => containsSub k (p.title ++ p.text))

/-- One evidence item of the competitor payload (`{url, snippet}`). -/
structure CompEvidence where
  url : Str
  snippet : Str
deriving DecidableEq, Repr

/-- One ranked competitor. -/
structure CompEntry where
  name : Str
  wins : Nat
  avgAmount : Option ℚ
deriving DecidableEq, Repr

/-- The `marketLandscape` block (`{"cci":..., "query":...}`). -/
structure MarketLandscape where
  cci : ℚ
  query : Str
deriving DecidableEq, Repr

/-- The `CompetitorIntel` payload. -/
structure CompetitorIntel where
  topCompetitors : List CompEntry
  marketLandscape : MarketLandscape
  evidences : List CompEvidence
deriving DecidableEq, Repr

/-- `if a.amount:` — `None` and `0.0` are falsy. -/
def amtTruthy : Option ℚ → Option ℚ
  | some q => if q = 0 then none else some q
  | none => none

/-- `by_comp[winner]` update: `wins += 1`, truthy amounts appended
(`defaultdict` keyed in insertion order, the empty name included). -/
def compInc : List (Str × Nat × List ℚ) → Str → Option ℚ → List (Str × Nat × List ℚ)
  | [], k, a => [(k, 1, match amtTruthy a with | some q => [q] | none => [])]
  | (k2, w, l) :: rest, k, a =>
    if k2 = k then
      (k2, w + 1, match amtTruthy a with | some q => l ++ [q] | none => l) :: rest
    else (k2, w, l) :: compInc rest k a

/-- Ranking key of `topCompetitors`: Python tuple key
`(-wins, -(avgAmount or 0))`, stable. -/
def compRankKey (x y : CompEntry) : Bool :=
  y.wins < x.wins || (x.wins = y.wins && (y.avgAmount.getD 0) ≤ (x.avgAmount.getD 0))

/-- The ranked competitor list: skip the empty name, strip, average the
collected amounts, sort by the ranking key. -/
def rankedOf (byComp : List (Str × Nat × List ℚ)) : List CompEntry :=
  sSort compRankKey (byComp.filterMap (fun e =>
    if e.1.isEmpty then none
    else some ⟨pyStrip e.1, e.2.1,
      if e.2.2.isEmpty then none else some (e.2.2.sum / (e.2.2.length : ℚ))⟩))

/-- The page loop: each retained page contributes one
`(canonical winner, amount)` pair and one `{url, snippet≤260}` evidence. -/
def cpStep (st : List (Str × Option ℚ) × List CompEvidence) (p : Page) :
    List (Str × Option ℚ) × List CompEvidence :=
  if cpContrib p then
    (st.1 ++ [(canonName (cpWinnerOf p.title p.text), cpAmountOf p.text)],
     st.2 ++ [⟨p.url, (joinSpace (pySplit p.text)).take 260⟩])
  else st

/-- The four market-competitiveness keywords of the concentration signal. -/
def cciKeys : List Str :=
  ["입찰".data, "경쟁".data, "제안서".data, "기술평가".data]

/-- The raw concentration signal: total keyword occurrences over
`" ".join(text of every page)`. -/
def cciSignal (pages : List Page) : Nat :=
  (cciKeys.map (fun k => countSub k (joinBy [' '] (pages.map (fun p => p.text))))).sum

/-- `build_competitor_intel_from_pages` (the spec's `buildCompetitorIntel`). -/
def buildCompetitorIntel (pages : List Page) (query : Str) : CompetitorIntel :=
  let st := pages.foldl cpStep ([], [])
  let byComp := st.1.foldl (fun l e => compInc l e.1 e.2) []
  let cci : ℚ := min 1 ((cciSignal pages : ℚ) / 40)
  ⟨(rankedOf byComp).take 5, ⟨cci, query⟩, st.2.take 10⟩

/-- Two pages each carrying one fallback-extractable winner; the page order
puts the name-larger winner first. -/
def c2PageN : Page := ⟨"u1".data, [], "낙찰자: 나나시스템".data⟩

/-- The second C2 page, whose winner name is smaller. -/
def c2PageG : Page := ⟨"u2".data, [], "낙찰자: 가가시스템".data⟩

/-- The adjacency order asserted by claim C2: strictly more wins, or equal
wins and ascending (code-point) name order. -/
def claimWinnerOrder (a b : TopWinner) : Bool :=
  b.wins < a.wins || (a.wins = b.wins && strLe a.name b.name)

/-- Claim C2's sortedness as an executable check over adjacent entries. -/
def claimSortedTW : List TopWinner → Bool
  | [] => true
  | [_] => true
  | a :: b :: r => claimWinnerOrder a b && claimSortedTW (b :: r)

/-- The `&nbsp;` entity as a character list. -/
def nbspEnt : Str := ['&', 'n', 'b', 's', 'p', ';']

/-- Characters that survive a full clean: not zero-width, not `U+00A0`,
not `\r`. -/
def cleanChar (c : Char) : Bool :=
  !isZW c && !(c.toNat = 0xa0) && !(c = '\r')

/-- No tab and no two adjacent horizontal-whitespace characters: the
`[ \t]+` collapse is the identity exactly on such strings. -/
def noHTpair : Str → Bool
  | [] => true
  | [c] => !(c = '\t')
  | c :: d :: r => !(c = '\t') && !(isHT c && isHT d) && noHTpair (d :: r)

/-- No three adjacent newlines: the `\n{3,}` collapse is the identity
exactly on such strings. -/
def noNL3 : Str → Bool
  | a :: b :: c :: r => !(a = '\n' && b = '\n' && c = '\n') && noNL3 (b :: c :: r)
  | _ => true

/-- The tail of the entity after its ampersand. -/
def nbspTail : Str := ['n', 'b', 's', 'p', ';']

/-! ### Concrete scenario inputs -/

/-- The Scenario A page text. -/
def scenarioAText : Str := "낙찰자: 한빛시스템 (주), 낙찰금액: 1,200,000,000원".data

/-- The Scenario A page (a single page carrying only that text). -/
def scenarioAPage : Page := ⟨[], [], scenarioAText⟩

/-- The decoded view of a failed or unparseable LLM exchange
(`_json_loose_load` of empty/garbage text: no winners, no reasons,
empty agency). -/
def emptyLlmView : LlmView := ⟨[], [], []⟩

/-- A constructed probabilistic client all of whose exchanges fail or return
unusable text. -/
def failingOracle : Str → LlmView := fun _ => emptyLlmView

/-! ### Claim theorems -/

/-- C5: when the probabilistic capability cannot be constructed, `extract`
returns (and does not raise) the structurally complete payload — every field
of the `AwardSnapshot` shape is present, the lists are empty and the note
flags the unavailability. -/
theorem C5_degradation (pages : List Page) (query : Str) :
    buildAwardsSnapshotLlm none pages query =
      ⟨query, [], ⟨[], [], []⟩, [], ⟨none, none, none⟩,
        some "LLM unavailable".data⟩ := rfl

/-- C1 (counterexample): with the probabilistic capability unavailable
(client cannot be constructed), `extract` on the Scenario A page returns the
flagged empty payload — `topWinners` is empty, not a one-entry list, so the
deterministic fallback surfaces nothing. -/
theorem C1_counterexample :
    (buildAwardsSnapshotLlm none [scenarioAPage] "q".data).signals.topWinners = [] ∧
    (buildAwardsSnapshotLlm none [scenarioAPage] "q".data).signals.topWinners.length ≠ 1 := by
  exact ⟨rfl, by decide⟩

/-- C1 (amended): the deterministic fallback fires when the client is
constructed but every exchange fails, not when it cannot be constructed.
On the Scenario A page the fallback's winner list has exactly one entry whose
amount string preserves `"1,200,000,000원"` and whose name is the greedy
capture `"한빛시스템, 낙찰금액"` (it begins with `"한빛시스템"` but also
carries the following amount label), and `topWinners` then has exactly one
entry with `wins = 1` under that name. -/
theorem C1_amended :
    (fallbackExtract scenarioAText).winners =
      [⟨"한빛시스템, 낙찰금액".data, some "1,200,000,000원".data⟩] ∧
    isPre "한빛시스템".data "한빛시스템, 낙찰금액".data = true ∧
    (buildAwardsSnapshotLlm (some failingOracle) [scenarioAPage] "q".data).signals.topWinners.map
        (fun w => (w.name, w.wins)) =
      [("한빛시스템, 낙찰금액".data, 1)] := by
  refine ⟨by decide, by decide, by decide⟩

/-! ### C2: ordering of `topWinners` -/

/-- C2 (counterexample): with a constructed client whose exchanges all fail,
the two-page input yields two winners with one win each, listed in first-
appearance order `나나시스템, 가가시스템` — not in ascending name order, so
the claimed tie-break by name does not hold. -/
theorem C2_counterexample :
    claimSortedTW
      ((buildAwardsSnapshotLlm (some failingOracle) [c2PageN, c2PageG]
        "q".data).signals.topWinners) = false := by decide

/-- Insertion into a chain-ordered list preserves the chain when the
"may precede" test is total. -/
theorem sInsert_chain {α : Type} {f : α → α → Bool}
    (htot : ∀ a b, f a b = true ∨ f b a = true) (x : α) :
    ∀ l : List α, l.Chain' (fun a b => f a b = true) →
      (sInsert f x l).Chain' (fun a b => f a b = true) := by
  intro l
  induction l with
  | nil => intro _; simp [sInsert]
  | cons y ys ih =>
    intro h
    simp only [sInsert]
    by_cases hxy : f x y = true
    · rw [if_pos hxy]
      exact List.chain'_cons.mpr ⟨hxy, h⟩
    · rw [if_neg hxy]
      have hyx : f y x = true := (htot x y).resolve_left hxy
      have h2 := ih (List.Chain'.tail h)
      cases ys with
      | nil => simpa [sInsert] using hyx
      | cons z zs =>
        have hyz := (List.chain'_cons.mp h).1
        by_cases hxz : f x z = true
        · simp only [sInsert, if_pos hxz]
          exact List.chain'_cons.mpr ⟨hyx,
            List.chain'_cons.mpr ⟨hxz, (List.chain'_cons.mp h).2⟩⟩
        · simp only [sInsert, if_neg hxz]
          have h3 : (z :: sInsert f x zs).Chain' (fun a b => f a b = true) := by
            simpa [sInsert, if_neg hxz] using h2
          exact List.chain'_cons.mpr ⟨hyz, h3⟩

/-- The stable sort is chain-ordered by its total "may precede" test. -/
theorem sSort_chain {α : Type} {f : α → α → Bool}
    (htot : ∀ a b, f a b = true ∨ f b a = true) (l : List α) :
    (sSort f l).Chain' (fun a b => f a b = true) := by
  induction l with
  | nil => simp [sSort]
  | cons x xs ih => exact sInsert_chain htot x _ ih

/-- `most_common` results, mapped into any structure that reads the count
into `wins`, are chain-ordered by descending wins. -/
theorem mostCommon_map_chain {β : Type} (n : Nat) (c : CounterL)
    (g : Str × Nat → β) (wins : β → Nat) (hg : ∀ e, wins (g e) = e.2) :
    ((mostCommon n c).map g).Chain' (fun a b => wins b ≤ wins a) := by
  have htot : ∀ a b : Str × Nat, mcKey a b = true ∨ mcKey b a = true := by
    intro a b
    simp only [mcKey, decide_eq_true_eq]
    omega
  have h1 : (sSort mcKey c).Chain' (fun a b : Str × Nat => b.2 ≤ a.2) := by
    refine (sSort_chain htot c).imp ?_
    intro a b h
    exact of_decide_eq_true h
  have h2 : (mostCommon n c).Chain' (fun a b : Str × Nat => b.2 ≤ a.2) := h1.take n
  rw [List.chain'_map]
  exact h2.imp (fun {a b} h => by rw [hg, hg]; exact h)

/-- C2 (amended): for every client state, page list and query, `topWinners`
is sorted by descending win count (adjacent entries non-increasing); ties
keep the counter's first-appearance order, not ascending name order. -/
theorem C2_amended (llm : Option (Str → LlmView)) (pages : List Page) (query : Str) :
    ((buildAwardsSnapshotLlm llm pages query).signals.topWinners).Chain'
      (fun a b => b.wins ≤ a.wins) := by
  cases llm with
  | none => simp [buildAwardsSnapshotLlm]
  | some oracle =>
    exact mostCommon_map_chain 8 _ _ TopWinner.wins (fun e => rfl)

/-! ### C3: cap invariants -/

/-- C3: every payload satisfies all cap invariants simultaneously:
`topWinners ≤ 8`, `topReasons ≤ 8`, `agencies ≤ 6`, `evidences ≤ 20`,
legacy winners `≤ 5`. -/
theorem C3_caps (llm : Option (Str → LlmView)) (pages : List Page) (query : Str) :
    (buildAwardsSnapshotLlm llm pages query).signals.topWinners.length ≤ 8 ∧
    (buildAwardsSnapshotLlm llm pages query).signals.topReasons.length ≤ 8 ∧
    (buildAwardsSnapshotLlm llm pages query).signals.agencies.length ≤ 6 ∧
    (buildAwardsSnapshotLlm llm pages query).evidences.length ≤ 20 ∧
    (buildAwardsSnapshotLlm llm pages query).winners.length ≤ 5 := by
  have hmap : ∀ {β : Type} (n : Nat) (c : CounterL) (g : Str × Nat → β),
      ((mostCommon n c).map g).length ≤ n := by
    intro β n c g
    rw [List.length_map]
    exact List.length_take_le _ _
  cases llm with
  | none => simp [buildAwardsSnapshotLlm]
  | some oracle =>
    exact ⟨hmap 8 _ _, hmap 8 _ _, hmap 6 _ _, List.length_take_le _ _, hmap 5 _ _⟩

/-! ### C6: score threshold of the deterministic extractor -/

/-- Every winner emitted by the deduplication carries a non-empty name. -/
theorem dedupFb_name_ne (l : List RawW) (seen : List Str) :
    ∀ w ∈ dedupFb l seen, ¬ w.name.isEmpty = true := by
  induction l generalizing seen with
  | nil => intro w hw; simp [dedupFb] at hw
  | cons x xs ih =>
    intro w hw
    rw [dedupFb] at hw
    split at hw
    · exact ih seen w hw
    · rename_i hcond
      rcases List.mem_cons.mp hw with h1 | h2
      · subst h1
        simp only [Bool.or_eq_true, not_or] at hcond
        exact hcond.1
      · exact ih _ w h2

/-- Deduplicated winners stem from candidates of equal name and amount. -/
theorem mem_dedupFb (l : List RawW) (seen : List Str) (w : FbW)
    (hw : w ∈ dedupFb l seen) :
    ∃ r ∈ l, r.name = w.name ∧ r.amount = w.amount := by
  induction l generalizing seen with
  | nil => simp [dedupFb] at hw
  | cons x xs ih =>
    rw [dedupFb] at hw
    split at hw
    · obtain ⟨r, hr, h2⟩ := ih seen hw
      exact ⟨r, List.mem_cons_of_mem _ hr, h2⟩
    · rcases List.mem_cons.mp hw with h1 | h2
      · subst h1
        exact ⟨x, List.mem_cons_self _ _, rfl, rfl⟩
      · obtain ⟨r, hr, h3⟩ := ih _ h2
        exact ⟨r, List.mem_cons_of_mem _ hr, h3⟩

/-- Membership through stable insertion. -/
theorem mem_sInsert {α : Type} {f : α → α → Bool} {x y : α} {l : List α} :
    y ∈ sInsert f x l ↔ y = x ∨ y ∈ l := by
  induction l with
  | nil => simp [sInsert]
  | cons z zs ih =>
    rw [sInsert]
    split
    · simp [List.mem_cons]
    · simp only [List.mem_cons, ih]
      tauto

/-- The stable sort is a permutation at the level of membership. -/
theorem mem_sSort {α : Type} {f : α → α → Bool} {l : List α} {x : α} :
    x ∈ sSort f l ↔ x ∈ l := by
  induction l with
  | nil => simp [sSort]
  | cons z zs ih =>
    show x ∈ sInsert f z (sSort f zs) ↔ _
    rw [mem_sInsert, ih, List.mem_cons]

/-- The amount update touches only the amount field. -/
theorem mem_setAmtAt : ∀ (l : List RawW) (i : Nat) (a : Str) (w : RawW),
    w ∈ setAmtAt l i a →
    ∃ w0 ∈ l, w.name = w0.name ∧ w.score = w0.score ∧ w.pos = w0.pos := by
  intro l
  induction l with
  | nil => intro i a w hw; simp [setAmtAt] at hw
  | cons x xs ih =>
    intro i a w hw
    cases i with
    | zero =>
      rw [setAmtAt] at hw
      rcases List.mem_cons.mp hw with h1 | h2
      · refine ⟨x, List.mem_cons_self _ _, ?_⟩
        rw [h1]
        exact ⟨rfl, rfl, rfl⟩
      · exact ⟨w, List.mem_cons_of_mem _ h2, rfl, rfl, rfl⟩
    | succ j =>
      rw [setAmtAt] at hw
      rcases List.mem_cons.mp hw with h1 | h2
      · refine ⟨x, List.mem_cons_self _ _, ?_⟩
        rw [h1]
        exact ⟨rfl, rfl, rfl⟩
      · obtain ⟨w0, hw0, hp⟩ := ih j a w h2
        exact ⟨w0, List.mem_cons_of_mem _ hw0, hp⟩

/-- One amount-assignment step preserves names, scores and spans. -/
theorem mem_assignStep (ws : List RawW) (am : Str × Nat) (w : RawW)
    (hw : w ∈ assignStep ws am) :
    ∃ w0 ∈ ws, w.name = w0.name ∧ w.score = w0.score ∧ w.pos = w0.pos := by
  unfold assignStep at hw
  split at hw
  · exact ⟨w, hw, rfl, rfl, rfl⟩
  · split at hw
    · exact mem_setAmtAt ws _ _ w hw
    · exact ⟨w, hw, rfl, rfl, rfl⟩

/-- The whole amount loop preserves names, scores and spans. -/
theorem mem_fbAssigned (text : Str) (w : RawW) (hw : w ∈ fbAssigned text) :
    ∃ w0 ∈ fbScored text, w.name = w0.name ∧ w.score = w0.score ∧ w.pos = w0.pos := by
  have key : ∀ (ams : List (Str × Nat)) (init : List RawW) (w : RawW),
      w ∈ ams.foldl assignStep init →
      ∃ w0 ∈ init, w.name = w0.name ∧ w.score = w0.score ∧ w.pos = w0.pos := by
    intro ams
    induction ams with
    | nil => exact fun init w hw => ⟨w, hw, rfl, rfl, rfl⟩
    | cons a as ih =>
      intro init w hw
      obtain ⟨w1, hw1, e1, e2, e3⟩ := ih (assignStep init a) w hw
      obtain ⟨w0, hw0, f1, f2, f3⟩ := mem_assignStep init a w1 hw1
      exact ⟨w0, hw0, e1.trans f1, e2.trans f2, e3.trans f3⟩
  exact key _ _ _ hw

/-- Every scored candidate arises from a pattern match whose plausibility
score clears the threshold and whose normalization yields its name. -/
theorem mem_fbScored (text : Str) (w : RawW) (hw : w ∈ fbScored text) :
    ∃ c ∈ fbCandidates text, ¬ companyScore c.cand text c.span < 2 ∧
      normCompany c.cand = some w.name := by
  unfold fbScored at hw
  obtain ⟨c, hc, hmap⟩ := List.mem_filterMap.mp hw
  split at hmap
  · exact absurd hmap (by simp)
  · rename_i hsc
    obtain ⟨nm, hnm, heq⟩ := Option.map_eq_some'.mp hmap
    refine ⟨c, hc, hsc, ?_⟩
    rw [hnm, ← heq]

/-- C6: no winner below the plausibility threshold appears in the
deterministic extractor's output — every name in the returned winners list
arises from at least one regex match over the cleaned text whose
`_company_score` is at least 2 and normalizes to that name. -/
theorem C6_threshold (text : Str) (w : FbW)
    (hw : w ∈ (fallbackExtract text).winners) :
    ∃ c ∈ fbCandidates (cleanHtmlWs text),
      2 ≤ companyScore c.cand (cleanHtmlWs text) c.span ∧
      normCompany c.cand = some w.name := by
  unfold fallbackExtract at hw
  split at hw
  · simp at hw
  · have h1 := List.mem_of_mem_take hw
    obtain ⟨r, hr, hname, _⟩ := mem_dedupFb _ _ _ h1
    have h2 := mem_sSort.mp hr
    obtain ⟨w0, hw0, hn, _, _⟩ := mem_fbAssigned _ _ h2
    obtain ⟨c, hc, hsc, hnc⟩ := mem_fbScored _ _ hw0
    refine ⟨c, hc, by omega, ?_⟩
    rw [hnc, ← hn, hname]

/-- C6 (witness): the Scenario A winner is in the extractor output and the
theorem yields its scoring match. -/
theorem C6_witness :
    (⟨"한빛시스템, 낙찰금액".data, some "1,200,000,000원".data⟩ : FbW) ∈
      (fallbackExtract scenarioAText).winners ∧
    ∃ c ∈ fbCandidates (cleanHtmlWs scenarioAText),
      2 ≤ companyScore c.cand (cleanHtmlWs scenarioAText) c.span ∧
      normCompany c.cand = some "한빛시스템, 낙찰금액".data :=
  ⟨by decide,
   C6_threshold scenarioAText
     ⟨"한빛시스템, 낙찰금액".data, some "1,200,000,000원".data⟩ (by decide)⟩

/-! ### C4: per-page fallback guarantee -/

/-- Every winner of `_fallback_extract` has a non-empty name. -/
theorem fallbackExtract_name_ne (b : Str) :
    ∀ w ∈ (fallbackExtract b).winners, ¬ w.name.isEmpty = true := by
  intro w hw
  unfold fallbackExtract at hw
  split at hw
  · simp at hw
  · exact dedupFb_name_ne _ _ w (List.mem_of_mem_take hw)

/-- C4: for any page body, when the probabilistic path accumulates zero
winners over all chunks and the body carries at least one pattern-matchable
winner mention scoring `≥ 2` (equivalently, the deterministic extractor
returns winners), the per-page result is non-empty: the extractor runs on
the full body and its winners are merged in, while its reasons and agency
fill the result only when those accumulators are still empty. -/
theorem C4_fallback (oracle : Str → LlmView) (title url body : Str)
    (hzero : (chunkAccums oracle title url body).winners = [])
    (hfb : (fallbackExtract body).winners ≠ []) :
    (callLlm oracle title url body).winners =
      dedupW ((fallbackExtract body).winners.map fbWEntry) [] ∧
    (callLlm oracle title url body).winners ≠ [] ∧
    ((chunkAccums oracle title url body).reasons = [] →
      (callLlm oracle title url body).reasons = (fallbackExtract body).reasons) ∧
    ((chunkAccums oracle title url body).reasons ≠ [] →
      (callLlm oracle title url body).reasons
        = (chunkAccums oracle title url body).reasons) ∧
    ((chunkAccums oracle title url body).votes = [] →
      ∀ ag, (fallbackExtract body).agency = some ag →
        (callLlm oracle title url body).agency = ag) := by
  have hM : (callLlmMerged oracle title url body).winners
      = (fallbackExtract body).winners.map fbWEntry := by
    unfold callLlmMerged
    rw [hzero]
    rfl
  have c1 : (callLlm oracle title url body).winners
      = dedupW ((fallbackExtract body).winners.map fbWEntry) [] := by
    show dedupW (callLlmMerged oracle title url body).winners [] = _
    rw [hM]
  refine ⟨c1, ?_, ?_, ?_, ?_⟩
  · obtain ⟨w, ws, hcons⟩ := List.exists_cons_of_ne_nil hfb
    have hname := fallbackExtract_name_ne body w (hcons ▸ List.mem_cons_self w ws)
    rw [c1, hcons, List.map_cons, dedupW]
    rw [if_neg (by simp [fbWEntry, hname])]
    exact List.cons_ne_nil _ _
  · intro hre
    show (callLlmMerged oracle title url body).reasons = _
    unfold callLlmMerged
    rw [hzero, hre]
    by_cases hf : (fallbackExtract body).reasons = []
    · simp [hf]
    · simp [hf]
  · intro hne
    show (callLlmMerged oracle title url body).reasons = _
    unfold callLlmMerged
    rw [hzero]
    have hne2 : (chunkAccums oracle title url body).reasons.isEmpty = false := by
      cases h : (chunkAccums oracle title url body).reasons with
      | nil => exact absurd h hne
      | cons a l => rfl
    simp [hne2]
  · intro hv ag hag
    show (((sSort mcKey (callLlmMerged oracle title url body).votes).head?).map
      (·.1)).getD [] = ag
    have hM2 : (callLlmMerged oracle title url body).votes = [(ag, 1)] := by
      unfold callLlmMerged
      rw [hzero, hv, hag]
      rfl
    rw [hM2]
    rfl

/-- C4 (witness): Scenario A's body with a failing client discharges both
hypotheses. -/
theorem C4_witness :
    (chunkAccums failingOracle [] [] scenarioAText).winners = [] ∧
    (fallbackExtract scenarioAText).winners ≠ [] ∧
    ((callLlm failingOracle [] [] scenarioAText).winners =
      dedupW ((fallbackExtract scenarioAText).winners.map fbWEntry) [] ∧
    (callLlm failingOracle [] [] scenarioAText).winners ≠ [] ∧
    ((chunkAccums failingOracle [] [] scenarioAText).reasons = [] →
      (callLlm failingOracle [] [] scenarioAText).reasons
        = (fallbackExtract scenarioAText).reasons) ∧
    ((chunkAccums failingOracle [] [] scenarioAText).reasons ≠ [] →
      (callLlm failingOracle [] [] scenarioAText).reasons
        = (chunkAccums failingOracle [] [] scenarioAText).reasons) ∧
    ((chunkAccums failingOracle [] [] scenarioAText).votes = [] →
      ∀ ag, (fallbackExtract scenarioAText).agency = some ag →
        (callLlm failingOracle [] [] scenarioAText).agency = ag)) :=
  ⟨by decide, by decide,
   C4_fallback failingOracle [] [] scenarioAText (by decide) (by decide)⟩

/-! ### C7: ban-list soundness of the name validator -/

/-- C7: whenever the normalizer's cleaned candidate (trimmed,
whitespace-collapsed, corporate-prefix-stripped, punctuation-stripped)
contains a ban-listed phrase, `_norm_company` rejects: it returns `none`,
never a non-empty name. -/
theorem C7_banlist (name : Str)
    (hban : banTokens.any (fun k => containsSub k (normPrep name)) = true) :
    normCompany name = none := by
  simp only [normCompany]
  split_ifs <;> rfl

/-- C7 (witness): a candidate carrying the ban token `평가기준`. -/
theorem C7_witness :
    banTokens.any (fun k => containsSub k (normPrep "한빛 평가기준".data)) = true ∧
    normCompany "한빛 평가기준".data = none :=
  ⟨by decide, C7_banlist "한빛 평가기준".data (by decide)⟩

/-! ### C9: bounded concentration signal -/

/-- C9: the concentration signal of the competitor payload always lies in
`[0, 1]`: it is the total keyword-occurrence count over all page texts,
divided by 40 and clamped at 1. -/
theorem C9_cci (pages : List Page) (query : Str) :
    0 ≤ (buildCompetitorIntel pages query).marketLandscape.cci ∧
    (buildCompetitorIntel pages query).marketLandscape.cci ≤ 1 ∧
    (buildCompetitorIntel pages query).marketLandscape.cci
      = min 1 ((cciSignal pages : ℚ) / 40) := by
  have h : (buildCompetitorIntel pages query).marketLandscape.cci
      = min 1 ((cciSignal pages : ℚ) / 40) := rfl
  refine ⟨?_, ?_, h⟩
  · rw [h]
    have h0 : (0 : ℚ) ≤ (cciSignal pages : ℚ) / 40 := by positivity
    exact le_min (by norm_num) h0
  · rw [h]
    exact min_le_left _ _

/-! ### C10: competitor evidence shape -/

/-- The evidence component of the page loop: one `{url, snippet}` item per
retained page, in order. -/
theorem cpFold_evidences (pages : List Page) :
    ∀ (a : List (Str × Option ℚ)) (b : List CompEvidence),
      (pages.foldl cpStep (a, b)).2
        = b ++ (pages.filter cpContrib).map
            (fun p => CompEvidence.mk p.url ((joinSpace (pySplit p.text)).take 260)) := by
  induction pages with
  | nil => intro a b; simp
  | cons p ps ih =>
    intro a b
    rw [List.foldl_cons, List.filter_cons]
    by_cases hc : cpContrib p = true
    · rw [if_pos hc]
      have hstep : cpStep (a, b) p
          = (a ++ [(canonName (cpWinnerOf p.title p.text), cpAmountOf p.text)],
             b ++ [CompEvidence.mk p.url ((joinSpace (pySplit p.text)).take 260)]) := by
        unfold cpStep
        rw [if_pos hc]
      rw [hstep, ih, List.map_cons]
      simp
    · rw [if_neg hc]
      have hstep : cpStep (a, b) p = (a, b) := by
        unfold cpStep
        rw [if_neg hc]
      rw [hstep, ih]

/-- C10: the competitor payload's evidences are exactly the retained pages'
`{url, snippet}` items capped at 10, each snippet at most 260 characters; a
page contributes exactly when it has non-empty text and its title + text
contains an award-context keyword. -/
theorem C10_evidences (pages : List Page) (query : Str) :
    (buildCompetitorIntel pages query).evidences
      = ((pages.filter cpContrib).map
          (fun p => CompEvidence.mk p.url ((joinSpace (pySplit p.text)).take 260))).take 10 ∧
    (buildCompetitorIntel pages query).evidences.length ≤ 10 ∧
    ((buildCompetitorIntel pages query).evidences.all
      (fun e => e.snippet.length ≤ 260)) = true := by
  have h1 : (buildCompetitorIntel pages query).evidences
      = ((pages.filter cpContrib).map
          (fun p => CompEvidence.mk p.url ((joinSpace (pySplit p.text)).take 260))).take 10 := by
    show ((pages.foldl cpStep ([], [])).2).take 10 = _
    rw [cpFold_evidences pages [] []]
    rfl
  refine ⟨h1, ?_, ?_⟩
  · rw [h1]
    exact List.length_take_le _ _
  · rw [h1, List.all_eq_true]
    intro e he
    obtain ⟨p, hp, hpe⟩ := List.mem_map.mp (List.mem_of_mem_take he)
    rw [← hpe]
    simp only [decide_eq_true_eq]
    exact List.length_take_le _ _

/-! ### C8: idempotence of the text normalizer

The proof characterizes `cleanHtmlWs`'s image: its output contains no
zero-width character, no `U+00A0`, no `\r`, no `&nbsp;` occurrence, no tab
and no adjacent horizontal-whitespace pair, and no newline run of length 3 —
and every stage of the pipeline is the identity on strings satisfying the
corresponding property. -/

/-- A map that fixes every member is the identity. -/
theorem mapIdOn {f : Char → Char} :
    ∀ {s : Str}, (∀ c ∈ s, f c = c) → s.map f = s := by
  intro s
  induction s with
  | nil => intro _; rfl
  | cons c r ih =>
    intro h
    rw [List.map_cons, h c (List.mem_cons_self _ _), ih (fun d hd => h d (List.mem_cons_of_mem _ hd))]

/-- The zero-width filter is the identity on zero-width–free strings. -/
theorem dropZeroWidth_id {s : Str} (h : ∀ c ∈ s, isZW c = false) :
    dropZeroWidth s = s := by
  unfold dropZeroWidth
  rw [List.filter_eq_self]
  intro a ha
  rw [h a ha]
  rfl

/-- Unfolding of the entity replacement at a matching position. -/
theorem replNbspEnt_hit (r : Str) :
    replNbspEnt ('&' :: 'n' :: 'b' :: 's' :: 'p' :: ';' :: r) = ' ' :: replNbspEnt r := rfl

/-- Unfolding of the entity replacement at a non-matching position. -/
theorem replNbspEnt_miss (c : Char) (r : Str) (h : isPre nbspEnt (c :: r) = false) :
    replNbspEnt (c :: r) = c :: replNbspEnt r := by
  rw [replNbspEnt.eq_def]
  split
  · rename_i heq
    rw [heq] at h
    simp [nbspEnt, isPre] at h
  · rename_i c2 r2 hno heq
    injection heq with h1 h2
    subst h1
    subst h2
    rfl
  · rename_i heq
    exact absurd heq (List.cons_ne_nil c r)

/-- A prefix of `isPre nbspEnt s = true` forces the six-character shape. -/
theorem isPre_nbsp_shape {s : Str} (h : isPre nbspEnt s = true) :
    ∃ t, s = '&' :: 'n' :: 'b' :: 's' :: 'p' :: ';' :: t := by
  cases s with
  | nil => exact absurd h (by simp [nbspEnt, isPre])
  | cons c1 s1 =>
  cases s1 with
  | nil => exact absurd h (by simp [nbspEnt, isPre])
  | cons c2 s2 =>
  cases s2 with
  | nil => exact absurd h (by simp [nbspEnt, isPre])
  | cons c3 s3 =>
  cases s3 with
  | nil => exact absurd h (by simp [nbspEnt, isPre])
  | cons c4 s4 =>
  cases s4 with
  | nil => exact absurd h (by simp [nbspEnt, isPre])
  | cons c5 s5 =>
  cases s5 with
  | nil => exact absurd h (by simp [nbspEnt, isPre])
  | cons c6 s6 =>
  simp only [nbspEnt, isPre, Bool.and_eq_true, decide_eq_true_eq] at h
  obtain ⟨e1, e2, e3, e4, e5, e6, -⟩ := h
  subst e1
  subst e2
  subst e3
  subst e4
  subst e5
  subst e6
  exact ⟨s6, rfl⟩

/-- The entity replacement is the identity on occurrence-free strings. -/
theorem replNbspEnt_id : ∀ {s : Str}, containsSub nbspEnt s = false → replNbspEnt s = s := by
  intro s
  induction s with
  | nil => intro _; rfl
  | cons c r ih =>
    intro h
    rw [containsSub, Bool.or_eq_false_iff] at h
    rw [replNbspEnt_miss c r h.1, ih h.2]

/-- `noHTpair` holds for every tail. -/
theorem noHTpair_tail {c : Char} {r : Str} (h : noHTpair (c :: r) = true) :
    noHTpair r = true := by
  cases r with
  | nil => rfl
  | cons d r2 =>
    rw [noHTpair, Bool.and_eq_true, Bool.and_eq_true] at h
    exact h.2

/-- An HT character under `noHTpair` is a space. -/
theorem noHTpair_head_space {c : Char} {r : Str} (h : noHTpair (c :: r) = true)
    (hc : isHT c = true) : c = ' ' := by
  have hnt : (c = '\t') = False := by
    cases r with
    | nil =>
      rw [noHTpair, Bool.not_eq_true'] at h
      simpa using h
    | cons d r2 =>
      rw [noHTpair, Bool.and_eq_true, Bool.and_eq_true, Bool.not_eq_true'] at h
      simpa using h.1.1
  rw [isHT, Bool.or_eq_true, decide_eq_true_eq, decide_eq_true_eq] at hc
  rcases hc with h1 | h2
  · exact h1
  · rw [hnt] at h2
    exact absurd h2 id

/-- The second of an adjacent pair after an HT character is not HT. -/
theorem noHTpair_second {c d : Char} {r : Str} (h : noHTpair (c :: d :: r) = true)
    (hc : isHT c = true) : isHT d = false := by
  rw [noHTpair, Bool.and_eq_true, Bool.and_eq_true] at h
  have := h.1.2
  rw [Bool.not_eq_true', Bool.and_eq_false_iff] at this
  rcases this with h1 | h2
  · rw [h1] at hc
    exact absurd hc (by simp)
  · exact h2

/-- The `[ \t]+` collapse is the identity on `noHTpair` strings. -/
theorem collapseHT_id_aux : ∀ (n : Nat) (s : Str), s.length ≤ n →
    noHTpair s = true → collapseHT s = s := by
  intro n
  induction n with
  | zero =>
    intro s hl _
    rw [List.length_eq_zero.mp (Nat.le_zero.mp hl)]
    rfl
  | succ m ih =>
    intro s hl h
    cases s with
    | nil => rfl
    | cons c r =>
      rw [collapseHT]
      by_cases hc : isHT c = true
      · rw [if_pos hc, noHTpair_head_space h hc]
        cases r with
        | nil => rfl
        | cons d r2 =>
          have hd : isHT d = false := noHTpair_second h hc
          rw [collapseHTRun, if_neg (by rw [hd]; exact Bool.false_ne_true)]
          have h2 : collapseHT r2 = r2 := by
            refine ih r2 ?_ (noHTpair_tail (noHTpair_tail h))
            simp only [List.length_cons] at hl
            omega
          rw [h2]
      · rw [if_neg hc]
        have h2 : collapseHT r = r := by
          refine ih r ?_ (noHTpair_tail h)
          simp only [List.length_cons] at hl
          omega
        rw [h2]

/-- `noNL3` holds for every tail. -/
theorem noNL3_tail {c : Char} {r : Str} (h : noNL3 (c :: r) = true) :
    noNL3 r = true := by
  match r, h with
  | [], _ => rfl
  | [d], _ => rfl
  | d :: e :: r2, h => ?_
  rw [noNL3, Bool.and_eq_true] at h
  exact h.2

/-- The `\n{3,}` collapse is the identity on `noNL3` strings. -/
theorem collapseNL_id_aux : ∀ (n : Nat) (s : Str), s.length ≤ n →
    noNL3 s = true → collapseNL s = s := by
  intro n
  induction n with
  | zero =>
    intro s hl _
    rw [List.length_eq_zero.mp (Nat.le_zero.mp hl)]
    rfl
  | succ m ih =>
    intro s hl h
    cases s with
    | nil => rfl
    | cons c r =>
      rw [collapseNL]
      by_cases hc : c = '\n'
      · rw [if_pos hc]
        subst hc
        cases r with
        | nil => rfl
        | cons d r2 =>
          rw [collapseNL1]
          by_cases hd : d = '\n'
          · rw [if_pos hd]
            subst hd
            cases r2 with
            | nil => rfl
            | cons e r3 =>
              have he : ¬ e = '\n' := by
                rw [noNL3, Bool.and_eq_true, Bool.not_eq_true'] at h
                intro hcon
                simp [hcon] at h
              rw [collapseNL2, if_neg he]
              have h3 : collapseNL r3 = r3 := by
                refine ih r3 ?_ (noNL3_tail (noNL3_tail (noNL3_tail h)))
                simp only [List.length_cons] at hl
                omega
              rw [h3]
          · rw [if_neg hd]
            have h2 : collapseNL r2 = r2 := by
              refine ih r2 ?_ (noNL3_tail (noNL3_tail h))
              simp only [List.length_cons] at hl
              omega
            rw [h2]
      · rw [if_neg hc]
        have h2 : collapseNL r = r := by
          refine ih r ?_ (noNL3_tail h)
          simp only [List.length_cons] at hl
          omega
        rw [h2]

/-- Characters of the entity replacement come from the input or are the
inserted space. -/
theorem mem_replNbspEnt_aux : ∀ (n : Nat) (s : Str), s.length ≤ n →
    ∀ c ∈ replNbspEnt s, c ∈ s ∨ c = ' ' := by
  intro n
  induction n with
  | zero =>
    intro s hl c hc
    rw [List.length_eq_zero.mp (Nat.le_zero.mp hl)] at hc
    simp [replNbspEnt] at hc
  | succ m ih =>
    intro s hl c hc
    cases s with
    | nil => simp [replNbspEnt] at hc
    | cons a r =>
      by_cases hp : isPre nbspEnt (a :: r) = true
      · obtain ⟨t, ht⟩ := isPre_nbsp_shape hp
        injection ht with ha ht2
        subst ha
        subst ht2
        rw [replNbspEnt_hit] at hc
        rcases List.mem_cons.mp hc with h1 | h2
        · right
          exact h1
        · have hlt : t.length ≤ m := by
            simp only [List.length_cons] at hl
            omega
          rcases ih t hlt c h2 with h3 | h4
          · left
            simp [List.mem_cons, h3]
          · right
            exact h4
      · have hp2 : isPre nbspEnt (a :: r) = false := Bool.eq_false_iff.mpr hp
        rw [replNbspEnt_miss a r hp2] at hc
        have hlr : r.length ≤ m := by
          simp only [List.length_cons] at hl
          omega
        rcases List.mem_cons.mp hc with h1 | h2
        · left
          rw [h1]
          exact List.mem_cons_self _ _
        · rcases ih r hlr c h2 with h3 | h4
          · left
            exact List.mem_cons_of_mem _ h3
          · right
            exact h4

/-- Characters of the `[ \t]+` collapse come from the input or are the
inserted space (both states). -/
theorem mem_collapseHT_aux : ∀ (n : Nat) (s : Str), s.length ≤ n →
    (∀ c ∈ collapseHT s, c ∈ s ∨ c = ' ') ∧
    (∀ c ∈ collapseHTRun s, c ∈ s ∨ c = ' ') := by
  intro n
  induction n with
  | zero =>
    intro s hl
    rw [List.length_eq_zero.mp (Nat.le_zero.mp hl)]
    constructor <;> (intro c hc; simp [collapseHT, collapseHTRun] at hc)
  | succ m ih =>
    intro s hl
    cases s with
    | nil => constructor <;> (intro c hc; simp [collapseHT, collapseHTRun] at hc)
    | cons a r =>
      have hlr : r.length ≤ m := by
        simp only [List.length_cons] at hl
        omega
      constructor
      · intro c hc
        rw [collapseHT] at hc
        by_cases ha : isHT a = true
        · rw [if_pos ha] at hc
          rcases List.mem_cons.mp hc with h1 | h2
          · right
            exact h1
          · rcases (ih r hlr).2 c h2 with h3 | h4
            · left
              exact List.mem_cons_of_mem _ h3
            · right
              exact h4
        · rw [if_neg ha] at hc
          rcases List.mem_cons.mp hc with h1 | h2
          · left
            rw [h1]
            exact List.mem_cons_self _ _
          · rcases (ih r hlr).1 c h2 with h3 | h4
            · left
              exact List.mem_cons_of_mem _ h3
            · right
              exact h4
      · intro c hc
        rw [collapseHTRun] at hc
        by_cases ha : isHT a = true
        · rw [if_pos ha] at hc
          rcases (ih r hlr).2 c hc with h3 | h4
          · left
            exact List.mem_cons_of_mem _ h3
          · right
            exact h4
        · rw [if_neg ha] at hc
          rcases List.mem_cons.mp hc with h1 | h2
          · left
            rw [h1]
            exact List.mem_cons_self _ _
          · rcases (ih r hlr).1 c h2 with h3 | h4
            · left
              exact List.mem_cons_of_mem _ h3
            · right
              exact h4

/-- Characters of the `\n{3,}` collapse come from the input or are the
inserted newline (all four states). -/
theorem mem_collapseNL_aux : ∀ (n : Nat) (s : Str), s.length ≤ n →
    (∀ c ∈ collapseNL s, c ∈ s ∨ c = '\n') ∧
    (∀ c ∈ collapseNL1 s, c ∈ s ∨ c = '\n') ∧
    (∀ c ∈ collapseNL2 s, c ∈ s ∨ c = '\n') ∧
    (∀ c ∈ collapseNL3 s, c ∈ s ∨ c = '\n') := by
  intro n
  induction n with
  | zero =>
    intro s hl
    rw [List.length_eq_zero.mp (Nat.le_zero.mp hl)]
    refine ⟨?_, ?_, ?_, ?_⟩ <;>
      (intro c hc; simp [collapseNL, collapseNL1, collapseNL2, collapseNL3] at hc) <;>
      (right; exact hc)
  | succ m ih =>
    intro s hl
    cases s with
    | nil =>
      refine ⟨?_, ?_, ?_, ?_⟩ <;>
        (intro c hc; simp [collapseNL, collapseNL1, collapseNL2, collapseNL3] at hc) <;>
        (right; exact hc)
    | cons a r =>
      have hlr : r.length ≤ m := by
        simp only [List.length_cons] at hl
        omega
      have core : ∀ c, c ∈ a :: collapseNL r → c ∈ a :: r ∨ c = '\n' := by
        intro c hc
        rcases List.mem_cons.mp hc with h1 | h2
        · left
          rw [h1]
          exact List.mem_cons_self _ _
        · rcases (ih r hlr).1 c h2 with h3 | h4
          · left
            exact List.mem_cons_of_mem _ h3
          · right
            exact h4
      refine ⟨?_, ?_, ?_, ?_⟩
      · intro c hc
        rw [collapseNL] at hc
        by_cases ha : a = '\n'
        · rw [if_pos ha] at hc
          rcases (ih r hlr).2.1 c hc with h3 | h4
          · left
            exact List.mem_cons_of_mem _ h3
          · right
            exact h4
        · rw [if_neg ha] at hc
          exact core c hc
      · intro c hc
        rw [collapseNL1] at hc
        by_cases ha : a = '\n'
        · rw [if_pos ha] at hc
          rcases (ih r hlr).2.2.1 c hc with h3 | h4
          · left
            exact List.mem_cons_of_mem _ h3
          · right
            exact h4
        · rw [if_neg ha] at hc
          rcases List.mem_cons.mp hc with h1 | h2
          · right
            exact h1
          · exact core c h2
      · intro c hc
        rw [collapseNL2] at hc
        by_cases ha : a = '\n'
        · rw [if_pos ha] at hc
          rcases (ih r hlr).2.2.2 c hc with h3 | h4
          · left
            exact List.mem_cons_of_mem _ h3
          · right
            exact h4
        · rw [if_neg ha] at hc
          rcases List.mem_cons.mp hc with h1 | h2
          · right
            exact h1
          · rcases List.mem_cons.mp h2 with h5 | h6
            · right
              exact h5
            · exact core c h6
      · intro c hc
        rw [collapseNL3] at hc
        by_cases ha : a = '\n'
        · rw [if_pos ha] at hc
          rcases (ih r hlr).2.2.2 c hc with h3 | h4
          · left
            exact List.mem_cons_of_mem _ h3
          · right
            exact h4
        · rw [if_neg ha] at hc
          rcases List.mem_cons.mp hc with h1 | h2
          · right
            exact h1
          · rcases List.mem_cons.mp h2 with h5 | h6
            · right
              exact h5
            · exact core c h6

/-- The run-skipping state never emits a horizontal-whitespace head. -/
theorem collapseHTRun_head : ∀ (n : Nat) (s : Str), s.length ≤ n →
    ∀ d rest, collapseHTRun s = d :: rest → isHT d = false := by
  intro n
  induction n with
  | zero =>
    intro s hl d rest h
    rw [List.length_eq_zero.mp (Nat.le_zero.mp hl)] at h
    exact absurd h.symm (List.cons_ne_nil d rest)
  | succ m ih =>
    intro s hl d rest h
    cases s with
    | nil => exact absurd h.symm (List.cons_ne_nil d rest)
    | cons a r =>
      have hlr : r.length ≤ m := by
        simp only [List.length_cons] at hl
        omega
      rw [collapseHTRun] at h
      by_cases ha : isHT a = true
      · rw [if_pos ha] at h
        exact ih r hlr d rest h
      · rw [if_neg ha] at h
        injection h with h1 _
        rw [← h1]
        exact Bool.eq_false_iff.mpr ha

/-- Building `noHTpair` onto a head whose pairing is controlled. -/
theorem noHTpair_cons (c : Char) (X : Str) (hc : ¬ c = '\t')
    (hpair : ∀ d rest, X = d :: rest → (isHT c && isHT d) = false)
    (hX : noHTpair X = true) : noHTpair (c :: X) = true := by
  cases X with
  | nil => simp [noHTpair, hc]
  | cons d rest =>
    rw [noHTpair]
    simp [hc, hpair d rest rfl, hX]

/-- A non-HT head preserves `noHTpair`. -/
theorem noHTpair_cons_nonHT {a : Char} {X : Str} (ha : isHT a = false)
    (hX : noHTpair X = true) : noHTpair (a :: X) = true := by
  refine noHTpair_cons a X ?_ (fun d rest _ => by rw [ha, Bool.false_and]) hX
  intro hcon
  rw [isHT, hcon] at ha
  simp at ha

/-- A newline head preserves `noHTpair`. -/
theorem noHTpair_cons_nl {X : Str} (hX : noHTpair X = true) :
    noHTpair ('\n' :: X) = true :=
  noHTpair_cons_nonHT (by decide) hX

/-- The `[ \t]+` collapse always yields a `noHTpair` string (both states). -/
theorem noHTpair_collapseHT_aux : ∀ (n : Nat) (s : Str), s.length ≤ n →
    noHTpair (collapseHT s) = true ∧ noHTpair (collapseHTRun s) = true := by
  intro n
  induction n with
  | zero =>
    intro s hl
    rw [List.length_eq_zero.mp (Nat.le_zero.mp hl)]
    exact ⟨rfl, rfl⟩
  | succ m ih =>
    intro s hl
    cases s with
    | nil => exact ⟨rfl, rfl⟩
    | cons a r =>
      have hlr : r.length ≤ m := by
        simp only [List.length_cons] at hl
        omega
      constructor
      · rw [collapseHT]
        by_cases ha : isHT a = true
        · rw [if_pos ha]
          refine noHTpair_cons ' ' _ (by decide) ?_ (ih r hlr).2
          intro d rest hd
          rw [collapseHTRun_head (r.length) r le_rfl d rest hd, Bool.and_false]
        · rw [if_neg ha]
          exact noHTpair_cons_nonHT (Bool.eq_false_iff.mpr ha) (ih r hlr).1
      · rw [collapseHTRun]
        by_cases ha : isHT a = true
        · rw [if_pos ha]
          exact (ih r hlr).2
        · rw [if_neg ha]
          exact noHTpair_cons_nonHT (Bool.eq_false_iff.mpr ha) (ih r hlr).1

/-- The pending-newline states always emit a newline head. -/
theorem collapseNL_heads : ∀ (n : Nat) (s : Str), s.length ≤ n →
    (∀ d rest, collapseNL1 s = d :: rest → d = '\n') ∧
    (∀ d rest, collapseNL2 s = d :: rest → d = '\n') ∧
    (∀ d rest, collapseNL3 s = d :: rest → d = '\n') := by
  intro n
  induction n with
  | zero =>
    intro s hl
    rw [List.length_eq_zero.mp (Nat.le_zero.mp hl)]
    refine ⟨?_, ?_, ?_⟩ <;> (intro d rest h; injection h with h1 _; exact h1.symm)
  | succ m ih =>
    intro s hl
    cases s with
    | nil =>
      refine ⟨?_, ?_, ?_⟩ <;> (intro d rest h; injection h with h1 _; exact h1.symm)
    | cons a r =>
      have hlr : r.length ≤ m := by
        simp only [List.length_cons] at hl
        omega
      refine ⟨?_, ?_, ?_⟩
      · intro d rest h
        rw [collapseNL1] at h
        by_cases ha : a = '\n'
        · rw [if_pos ha] at h
          exact (ih r hlr).2.1 d rest h
        · rw [if_neg ha] at h
          injection h with h1 _
          exact h1.symm
      · intro d rest h
        rw [collapseNL2] at h
        by_cases ha : a = '\n'
        · rw [if_pos ha] at h
          exact (ih r hlr).2.2 d rest h
        · rw [if_neg ha] at h
          injection h with h1 _
          exact h1.symm
      · intro d rest h
        rw [collapseNL3] at h
        by_cases ha : a = '\n'
        · rw [if_pos ha] at h
          exact (ih r hlr).2.2 d rest h
        · rw [if_neg ha] at h
          injection h with h1 _
          exact h1.symm

/-- The head of the newline collapse is a newline or the input's own head. -/
theorem collapseNL_head {s : Str} {d : Char} {rest : Str}
    (h : collapseNL s = d :: rest) : d = '\n' ∨ (∃ r2, s = d :: r2) := by
  cases s with
  | nil => exact absurd h.symm (List.cons_ne_nil d rest)
  | cons a r =>
    rw [collapseNL] at h
    by_cases ha : a = '\n'
    · rw [if_pos ha] at h
      exact Or.inl ((collapseNL_heads r.length r le_rfl).1 d rest h)
    · rw [if_neg ha] at h
      injection h with h1 _
      exact Or.inr ⟨r, by rw [h1]⟩

/-- Keeping a copied head over the collapsed tail preserves `noHTpair`. -/
theorem noHTpair_cons_collapseNL {c : Char} {r : Str}
    (hcr : noHTpair (c :: r) = true) (hr : noHTpair (collapseNL r) = true) :
    noHTpair (c :: collapseNL r) = true := by
  have hct : ¬ c = '\t' := by
    intro hcon
    cases r with
    | nil =>
      rw [noHTpair, hcon] at hcr
      simp at hcr
    | cons d r2 =>
      rw [noHTpair, hcon] at hcr
      simp at hcr
  refine noHTpair_cons c _ hct ?_ hr
  intro d rest hd
  rcases collapseNL_head hd with h1 | ⟨r2, h2⟩
  · rw [h1]
    simp [isHT]
  · rw [h2] at hcr
    rw [noHTpair] at hcr
    simp only [Bool.and_eq_true, Bool.not_eq_true'] at hcr
    exact hcr.1.2

/-- The newline collapse preserves `noHTpair` (all four states). -/
theorem noHTpair_collapseNL_aux : ∀ (n : Nat) (s : Str), s.length ≤ n →
    noHTpair s = true →
    noHTpair (collapseNL s) = true ∧ noHTpair (collapseNL1 s) = true ∧
    noHTpair (collapseNL2 s) = true ∧ noHTpair (collapseNL3 s) = true := by
  intro n
  induction n with
  | zero =>
    intro s hl _
    rw [List.length_eq_zero.mp (Nat.le_zero.mp hl)]
    exact ⟨rfl, rfl, rfl, rfl⟩
  | succ m ih =>
    intro s hl hs
    cases s with
    | nil => exact ⟨rfl, rfl, rfl, rfl⟩
    | cons a r =>
      have hlr : r.length ≤ m := by
        simp only [List.length_cons] at hl
        omega
      have ht := noHTpair_tail hs
      have ihr := ih r hlr ht
      have hcopied : noHTpair (a :: collapseNL r) = true :=
        noHTpair_cons_collapseNL hs ihr.1
      refine ⟨?_, ?_, ?_, ?_⟩
      · rw [collapseNL]
        by_cases ha : a = '\n'
        · rw [if_pos ha]
          exact ihr.2.1
        · rw [if_neg ha]
          exact hcopied
      · rw [collapseNL1]
        by_cases ha : a = '\n'
        · rw [if_pos ha]
          exact ihr.2.2.1
        · rw [if_neg ha]
          exact noHTpair_cons_nl hcopied
      · rw [collapseNL2]
        by_cases ha : a = '\n'
        · rw [if_pos ha]
          exact ihr.2.2.2
        · rw [if_neg ha]
          exact noHTpair_cons_nl (noHTpair_cons_nl hcopied)
      · rw [collapseNL3]
        by_cases ha : a = '\n'
        · rw [if_pos ha]
          exact ihr.2.2.2
        · rw [if_neg ha]
          exact noHTpair_cons_nl (noHTpair_cons_nl hcopied)

/-- A non-newline head preserves `noNL3`. -/
theorem noNL3_cons_ne {a : Char} {X : Str} (ha : ¬ a = '\n')
    (hX : noNL3 X = true) : noNL3 (a :: X) = true := by
  match X, hX with
  | [], _ => rfl
  | [b], _ => rfl
  | b :: c :: r, hX => ?_
  rw [noNL3]
  simp [ha, hX]

/-- A single newline over a non-newline head preserves `noNL3`. -/
theorem noNL3_nl_cons {a : Char} {X : Str} (ha : ¬ a = '\n')
    (hX : noNL3 (a :: X) = true) : noNL3 ('\n' :: a :: X) = true := by
  cases X with
  | nil => rfl
  | cons c r =>
    rw [noNL3]
    simp [ha, hX]

/-- Two newlines over a non-newline head preserve `noNL3`. -/
theorem noNL3_nl2_cons {a : Char} {X : Str} (ha : ¬ a = '\n')
    (hX : noNL3 (a :: X) = true) : noNL3 ('\n' :: '\n' :: a :: X) = true := by
  rw [noNL3]
  simp [ha, noNL3_nl_cons ha hX]

/-- The newline collapse always yields a `noNL3` string (all four states). -/
theorem noNL3_collapseNL_aux : ∀ (n : Nat) (s : Str), s.length ≤ n →
    noNL3 (collapseNL s) = true ∧ noNL3 (collapseNL1 s) = true ∧
    noNL3 (collapseNL2 s) = true ∧ noNL3 (collapseNL3 s) = true := by
  intro n
  induction n with
  | zero =>
    intro s hl
    rw [List.length_eq_zero.mp (Nat.le_zero.mp hl)]
    exact ⟨rfl, rfl, rfl, rfl⟩
  | succ m ih =>
    intro s hl
    cases s with
    | nil => exact ⟨rfl, rfl, rfl, rfl⟩
    | cons a r =>
      have hlr : r.length ≤ m := by
        simp only [List.length_cons] at hl
        omega
      have ihr := ih r hlr
      refine ⟨?_, ?_, ?_, ?_⟩
      · rw [collapseNL]
        by_cases ha : a = '\n'
        · rw [if_pos ha]
          exact ihr.2.1
        · rw [if_neg ha]
          exact noNL3_cons_ne ha ihr.1
      · rw [collapseNL1]
        by_cases ha : a = '\n'
        · rw [if_pos ha]
          exact ihr.2.2.1
        · rw [if_neg ha]
          exact noNL3_nl_cons ha (noNL3_cons_ne ha ihr.1)
      · rw [collapseNL2]
        by_cases ha : a = '\n'
        · rw [if_pos ha]
          exact ihr.2.2.2
        · rw [if_neg ha]
          exact noNL3_nl2_cons ha (noNL3_cons_ne ha ihr.1)
      · rw [collapseNL3]
        by_cases ha : a = '\n'
        · rw [if_pos ha]
          exact ihr.2.2.2
        · rw [if_neg ha]
          exact noNL3_nl2_cons ha (noNL3_cons_ne ha ihr.1)

/-- `nbspEnt` decomposed. -/
theorem nbspEnt_cons : nbspEnt = '&' :: nbspTail := rfl

/-- A space-free prefix of the entity-replacement output is a prefix of the
input. -/
theorem isPre_replNbspEnt : ∀ (q : Str), (∀ a ∈ q, ¬ a = ' ') →
    ∀ (n : Nat) (s : Str), s.length ≤ n →
    isPre q (replNbspEnt s) = true → isPre q s = true := by
  intro q
  induction q with
  | nil => intro _ n s _ _; rfl
  | cons a q2 ih =>
    intro hq n s hl h
    induction n generalizing s with
    | zero =>
      rw [List.length_eq_zero.mp (Nat.le_zero.mp hl)] at h ⊢
      exact h
    | succ m ihn =>
      cases s with
      | nil => exact h
      | cons c r =>
        by_cases hp : isPre nbspEnt (c :: r) = true
        · obtain ⟨t, ht⟩ := isPre_nbsp_shape hp
          injection ht with ha ht2
          subst ha
          subst ht2
          rw [replNbspEnt_hit] at h
          rw [isPre, Bool.and_eq_true, decide_eq_true_eq] at h
          exact absurd h.1 (hq a (List.mem_cons_self _ _))
        · rw [replNbspEnt_miss c r (Bool.eq_false_iff.mpr hp)] at h
          rw [isPre, Bool.and_eq_true] at h ⊢
          refine ⟨h.1, ?_⟩
          refine ih (fun b hb => hq b (List.mem_cons_of_mem _ hb)) r.length r le_rfl h.2

/-- The entity replacement leaves no occurrence of the entity. -/
theorem replNbspEnt_no : ∀ (n : Nat) (s : Str), s.length ≤ n →
    containsSub nbspEnt (replNbspEnt s) = false := by
  intro n
  induction n with
  | zero =>
    intro s hl
    rw [List.length_eq_zero.mp (Nat.le_zero.mp hl)]
    rfl
  | succ m ih =>
    intro s hl
    cases s with
    | nil => rfl
    | cons c r =>
      by_cases hp : isPre nbspEnt (c :: r) = true
      · obtain ⟨t, ht⟩ := isPre_nbsp_shape hp
        injection ht with ha ht2
        subst ha
        subst ht2
        rw [replNbspEnt_hit, containsSub, Bool.or_eq_false_iff]
        constructor
        · rfl
        · refine ih t ?_
          simp only [List.length_cons] at hl
          omega
      · rw [replNbspEnt_miss c r (Bool.eq_false_iff.mpr hp)]
        rw [containsSub, Bool.or_eq_false_iff]
        have hlr : r.length ≤ m := by
          simp only [List.length_cons] at hl
          omega
        refine ⟨?_, ih r hlr⟩
        by_contra hcon
        rw [Bool.not_eq_false] at hcon
        rw [nbspEnt_cons, isPre, Bool.and_eq_true] at hcon
        have h2 : isPre nbspTail r = true :=
          isPre_replNbspEnt nbspTail (by decide) r.length r le_rfl hcon.2
        have : isPre nbspEnt (c :: r) = true := by
          rw [nbspEnt_cons, isPre, Bool.and_eq_true]
          exact ⟨hcon.1, h2⟩
        exact hp this

/-- A prefix of a mapped string whose characters avoid the only moved-to
character is a prefix of the source. -/
theorem isPre_map_avoid {f : Char → Char} {w : Char}
    (hf : ∀ d, f d = d ∨ f d = w) :
    ∀ (q : Str), (∀ a ∈ q, ¬ a = w) →
    ∀ (s : Str), isPre q (s.map f) = true → isPre q s = true := by
  intro q
  induction q with
  | nil => intro _ s _; rfl
  | cons a q2 ih =>
    intro hq s h
    cases s with
    | nil => exact h
    | cons c r =>
      rw [List.map_cons, isPre, Bool.and_eq_true, decide_eq_true_eq] at h
      rw [isPre, Bool.and_eq_true, decide_eq_true_eq]
      rcases hf c with h1 | h2
      · rw [h1] at h
        exact ⟨h.1, ih (fun b hb => hq b (List.mem_cons_of_mem _ hb)) r h.2⟩
      · rw [h2] at h
        exact absurd (h.1 ▸ hq a (List.mem_cons_self _ _)) (fun hcon => hcon rfl)

/-- Such a map cannot create an occurrence. -/
theorem containsSub_map_avoid {f : Char → Char} {w : Char}
    (hf : ∀ d, f d = d ∨ f d = w) (q : Str) (hq : ∀ a ∈ q, ¬ a = w)
    (hqne : isPre q [] = false) :
    ∀ (s : Str), containsSub q s = false → containsSub q (s.map f) = false := by
  intro s
  induction s with
  | nil => intro _; exact hqne
  | cons c r ih =>
    intro h
    rw [containsSub, Bool.or_eq_false_iff] at h
    rw [List.map_cons, containsSub, Bool.or_eq_false_iff]
    constructor
    · by_contra hcon
      rw [Bool.not_eq_false] at hcon
      have := isPre_map_avoid hf q hq (c :: r) (by rw [List.map_cons]; exact hcon)
      rw [h.1] at this
      exact Bool.false_ne_true this
    · exact ih h.2

/-- A prefix of the `[ \t]+` collapse from HT-free characters is a prefix of
the input. -/
theorem isPre_collapseHT : ∀ (q : Str), (∀ a ∈ q, isHT a = false) →
    ∀ (s : Str), isPre q (collapseHT s) = true → isPre q s = true := by
  intro q
  induction q with
  | nil => intro _ s _; rfl
  | cons a q2 ih =>
    intro hq s h
    cases s with
    | nil => exact h
    | cons c r =>
      rw [collapseHT] at h
      by_cases hc : isHT c = true
      · rw [if_pos hc] at h
        rw [isPre, Bool.and_eq_true, decide_eq_true_eq] at h
        have := hq a (List.mem_cons_self _ _)
        rw [h.1, isHT] at this
        simp at this
      · rw [if_neg hc] at h
        rw [isPre, Bool.and_eq_true] at h ⊢
        exact ⟨h.1, ih (fun b hb => hq b (List.mem_cons_of_mem _ hb)) r h.2⟩

/-- The `[ \t]+` collapse cannot create an entity occurrence. -/
theorem containsSub_collapseHT_aux : ∀ (n : Nat) (s : Str), s.length ≤ n →
    containsSub nbspEnt s = false →
    containsSub nbspEnt (collapseHT s) = false ∧
    containsSub nbspEnt (collapseHTRun s) = false := by
  intro n
  induction n with
  | zero =>
    intro s hl _
    rw [List.length_eq_zero.mp (Nat.le_zero.mp hl)]
    exact ⟨rfl, rfl⟩
  | succ m ih =>
    intro s hl h
    cases s with
    | nil => exact ⟨rfl, rfl⟩
    | cons c r =>
      rw [containsSub, Bool.or_eq_false_iff] at h
      have hlr : r.length ≤ m := by
        simp only [List.length_cons] at hl
        omega
      have ihr := ih r hlr h.2
      have hcopied : containsSub nbspEnt (c :: collapseHT r) = false := by
        rw [containsSub, Bool.or_eq_false_iff]
        refine ⟨?_, ihr.1⟩
        by_contra hcon
        rw [Bool.not_eq_false, nbspEnt_cons, isPre, Bool.and_eq_true] at hcon
        have h2 : isPre nbspTail r = true :=
          isPre_collapseHT nbspTail (by decide) r hcon.2
        have h3 : isPre nbspEnt (c :: r) = true := by
          rw [nbspEnt_cons, isPre, Bool.and_eq_true]
          exact ⟨hcon.1, h2⟩
        rw [h.1] at h3
        exact Bool.false_ne_true h3
      constructor
      · rw [collapseHT]
        by_cases hc : isHT c = true
        · rw [if_pos hc, containsSub, Bool.or_eq_false_iff]
          exact ⟨by rfl, ihr.2⟩
        · rw [if_neg hc]
          exact hcopied
      · rw [collapseHTRun]
        by_cases hc : isHT c = true
        · rw [if_pos hc]
          exact ihr.2
        · rw [if_neg hc]
          exact hcopied

/-- A prefix of the newline collapse from newline-free characters is a
prefix of the input. -/
theorem isPre_collapseNL : ∀ (q : Str), (∀ a ∈ q, ¬ a = '\n') →
    ∀ (s : Str), isPre q (collapseNL s) = true → isPre q s = true := by
  intro q
  induction q with
  | nil => intro _ s _; rfl
  | cons a q2 ih =>
    intro hq s h
    cases s with
    | nil => exact h
    | cons c r =>
      rw [collapseNL] at h
      by_cases hc : c = '\n'
      · rw [if_pos hc] at h
        cases hX : collapseNL1 r with
        | nil =>
          rw [hX, isPre] at h
          exact absurd h (by simp)
        | cons d rest =>
          rw [hX, isPre, Bool.and_eq_true, decide_eq_true_eq] at h
          have hd := (collapseNL_heads r.length r le_rfl).1 d rest hX
          exact absurd (h.1.trans hd) (hq a (List.mem_cons_self _ _))
      · rw [if_neg hc] at h
        rw [isPre, Bool.and_eq_true] at h ⊢
        exact ⟨h.1, ih (fun b hb => hq b (List.mem_cons_of_mem _ hb)) r h.2⟩

/-- The newline collapse cannot create an entity occurrence. -/
theorem containsSub_collapseNL_aux : ∀ (n : Nat) (s : Str), s.length ≤ n →
    containsSub nbspEnt s = false →
    containsSub nbspEnt (collapseNL s) = false ∧
    containsSub nbspEnt (collapseNL1 s) = false ∧
    containsSub nbspEnt (collapseNL2 s) = false ∧
    containsSub nbspEnt (collapseNL3 s) = false := by
  intro n
  induction n with
  | zero =>
    intro s hl _
    rw [List.length_eq_zero.mp (Nat.le_zero.mp hl)]
    exact ⟨rfl, rfl, rfl, rfl⟩
  | succ m ih =>
    intro s hl h
    cases s with
    | nil => exact ⟨rfl, rfl, rfl, rfl⟩
    | cons c r =>
      rw [containsSub, Bool.or_eq_false_iff] at h
      have hlr : r.length ≤ m := by
        simp only [List.length_cons] at hl
        omega
      have ihr := ih r hlr h.2
      have hcopied : containsSub nbspEnt (c :: collapseNL r) = false := by
        rw [containsSub, Bool.or_eq_false_iff]
        refine ⟨?_, ihr.1⟩
        by_contra hcon
        rw [Bool.not_eq_false, nbspEnt_cons, isPre, Bool.and_eq_true] at hcon
        have h2 : isPre nbspTail r = true :=
          isPre_collapseNL nbspTail (by decide) r hcon.2
        have h3 : isPre nbspEnt (c :: r) = true := by
          rw [nbspEnt_cons, isPre, Bool.and_eq_true]
          exact ⟨hcon.1, h2⟩
        rw [h.1] at h3
        exact Bool.false_ne_true h3
      have hnlcons : ∀ (X : Str), containsSub nbspEnt X = false →
          containsSub nbspEnt ('\n' :: X) = false := by
        intro X hX
        rw [containsSub, Bool.or_eq_false_iff]
        exact ⟨by rfl, hX⟩
      refine ⟨?_, ?_, ?_, ?_⟩
      · rw [collapseNL]
        by_cases hc : c = '\n'
        · rw [if_pos hc]
          exact ihr.2.1
        · rw [if_neg hc]
          exact hcopied
      · rw [collapseNL1]
        by_cases hc : c = '\n'
        · rw [if_pos hc]
          exact ihr.2.2.1
        · rw [if_neg hc]
          exact hnlcons _ hcopied
      · rw [collapseNL2]
        by_cases hc : c = '\n'
        · rw [if_pos hc]
          exact ihr.2.2.2
        · rw [if_neg hc]
          exact hnlcons _ (hnlcons _ hcopied)
      · rw [collapseNL3]
        by_cases hc : c = '\n'
        · rw [if_pos hc]
          exact ihr.2.2.2
        · rw [if_neg hc]
          exact hnlcons _ (hnlcons _ hcopied)

/-- The NBSP substitution fixes everything or yields a space. -/
theorem nbspCharFix_cases (c : Char) : nbspCharFix c = c ∨ nbspCharFix c = ' ' := by
  unfold nbspCharFix
  by_cases h : c.toNat = 0xa0
  · rw [if_pos h]
    exact Or.inr rfl
  · rw [if_neg h]
    exact Or.inl rfl

/-- The CR substitution fixes everything or yields a newline. -/
theorem crFix_cases (c : Char) : crFix c = c ∨ crFix c = '\n' := by
  unfold crFix
  by_cases h : c = '\r'
  · rw [if_pos h]
    exact Or.inr rfl
  · rw [if_neg h]
    exact Or.inl rfl

/-- The NBSP substitution never outputs `U+00A0`. -/
theorem nbspCharFix_not_a0 (c : Char) : ¬ (nbspCharFix c).toNat = 0xa0 := by
  unfold nbspCharFix
  by_cases h : c.toNat = 0xa0
  · rw [if_pos h]
    decide
  · rw [if_neg h]
    exact h

/-- The CR substitution never outputs `\r`. -/
theorem crFix_not_cr (c : Char) : ¬ crFix c = '\r' := by
  unfold crFix
  by_cases h : c = '\r'
  · rw [if_pos h]
    decide
  · rw [if_neg h]
    exact h

/-- Unpacking `cleanChar`. -/
theorem cleanChar_spec {c : Char} (h : cleanChar c = true) :
    isZW c = false ∧ ¬ c.toNat = 0xa0 ∧ ¬ c = '\r' := by
  rw [cleanChar] at h
  simp only [Bool.and_eq_true, Bool.not_eq_true', decide_eq_false_iff_not] at h
  exact ⟨h.1.1, h.1.2, h.2⟩

/-- Packing `cleanChar`. -/
theorem cleanChar_intro {c : Char} (h1 : isZW c = false) (h2 : ¬ c.toNat = 0xa0)
    (h3 : ¬ c = '\r') : cleanChar c = true := by
  rw [cleanChar]
  simp only [Bool.and_eq_true, Bool.not_eq_true', decide_eq_false_iff_not]
  exact ⟨⟨h1, h2⟩, h3⟩

/-- C8: the text normalizer is idempotent —
`clean(clean(x)) = clean(x)` for every input string. -/
theorem C8_idempotent (x : Str) : cleanHtmlWs (cleanHtmlWs x) = cleanHtmlWs x := by
  -- names for the pipeline stages of the inner clean
  have hs0 : ∀ c ∈ dropZeroWidth x, isZW c = false := by
    intro c hc
    have := (List.mem_filter.mp hc).2
    simpa using this
  have hs1 : ∀ c ∈ replNbspEnt (dropZeroWidth x), isZW c = false := by
    intro c hc
    rcases mem_replNbspEnt_aux (dropZeroWidth x).length _ le_rfl c hc with h1 | h2
    · exact hs0 c h1
    · rw [h2]
      rfl
  have hs3 : ∀ c ∈ replCR (replNbspChar (replNbspEnt (dropZeroWidth x))),
      cleanChar c = true := by
    intro c hc
    obtain ⟨d, hd, hfd⟩ := List.mem_map.mp hc
    obtain ⟨e, he, hfe⟩ := List.mem_map.mp hd
    have hze : isZW e = false := hs1 e he
    have hzd : isZW d = false := by
      rcases nbspCharFix_cases e with h1 | h2
      · rw [← hfe, h1]
        exact hze
      · rw [← hfe, h2]
        rfl
    have hzc : isZW c = false := by
      rcases crFix_cases d with h1 | h2
      · rw [← hfd, h1]
        exact hzd
      · rw [← hfd, h2]
        rfl
    have ha0d : ¬ d.toNat = 0xa0 := by
      rw [← hfe]
      exact nbspCharFix_not_a0 e
    have ha0c : ¬ c.toNat = 0xa0 := by
      rcases crFix_cases d with h1 | h2
      · rw [← hfd, h1]
        exact ha0d
      · rw [← hfd, h2]
        decide
    have hcrc : ¬ c = '\r' := by
      rw [← hfd]
      exact crFix_not_cr d
    exact cleanChar_intro hzc ha0c hcrc
  have hs4 : ∀ c ∈ collapseHT (replCR (replNbspChar (replNbspEnt (dropZeroWidth x)))),
      cleanChar c = true := by
    intro c hc
    rcases (mem_collapseHT_aux _ _ le_rfl).1 c hc with h1 | h2
    · exact hs3 c h1
    · rw [h2]
      rfl
  have hy : ∀ c ∈ cleanHtmlWs x, cleanChar c = true := by
    intro c hc
    rcases (mem_collapseNL_aux _ _ le_rfl).1 c hc with h1 | h2
    · exact hs4 c h1
    · rw [h2]
      rfl
  -- absence of the entity
  have hb1 : containsSub nbspEnt (replNbspEnt (dropZeroWidth x)) = false :=
    replNbspEnt_no _ _ le_rfl
  have hb2 : containsSub nbspEnt (replNbspChar (replNbspEnt (dropZeroWidth x))) = false :=
    containsSub_map_avoid nbspCharFix_cases nbspEnt (by decide) rfl _ hb1
  have hb3 : containsSub nbspEnt
      (replCR (replNbspChar (replNbspEnt (dropZeroWidth x)))) = false :=
    containsSub_map_avoid crFix_cases nbspEnt (by decide) rfl _ hb2
  have hb4 := (containsSub_collapseHT_aux _ _ le_rfl hb3).1
  have hb5 : containsSub nbspEnt (cleanHtmlWs x) = false :=
    (containsSub_collapseNL_aux _ _ le_rfl hb4).1
  -- whitespace shape
  have hht : noHTpair (cleanHtmlWs x) = true :=
    (noHTpair_collapseNL_aux _ _ le_rfl (noHTpair_collapseHT_aux _ _ le_rfl).1).1
  have hnl : noNL3 (cleanHtmlWs x) = true := (noNL3_collapseNL_aux _ _ le_rfl).1
  -- every stage of the outer clean is the identity
  show collapseNL (collapseHT (replCR (replNbspChar
    (replNbspEnt (dropZeroWidth (cleanHtmlWs x)))))) = cleanHtmlWs x
  rw [dropZeroWidth_id (fun c hc => (cleanChar_spec (hy c hc)).1)]
  rw [replNbspEnt_id hb5]
  have hmap1 : replNbspChar (cleanHtmlWs x) = cleanHtmlWs x := by
    refine mapIdOn ?_
    intro c hc
    unfold nbspCharFix
    rw [if_neg (cleanChar_spec (hy c hc)).2.1]
  rw [hmap1]
  have hmap2 : replCR (cleanHtmlWs x) = cleanHtmlWs x := by
    refine mapIdOn ?_
    intro c hc
    unfold crFix
    rw [if_neg (cleanChar_spec (hy c hc)).2.2]
  rw [hmap2]
  rw [collapseHT_id_aux (cleanHtmlWs x).length _ le_rfl hht]
  rw [collapseNL_id_aux (cleanHtmlWs x).length _ le_rfl hnl]

end GovAgent
